import Mathlib

/-
Verification of the orang exact-inference engine of dwave-samplers.

The development shallowly embeds the C++ sources:
  * `src/src/orang/varorder.h`   — greedyVarOrder and its helpers;
  * `src/orang/src/include/operations/dummy.h` — the dummy algebra;
  * `src/python/conversions.cpp` — the Ising table adapter;
  * `src/c/interface.cc`         — the C entry points (argument validation,
    marginal construction, RNG seeding).

Machine doubles are embedded as exact rationals (ℚ) or reals (ℝ): every
claim settled here is about ordering, counting and algebraic structure, for
which exact arithmetic is the intended semantics of the code.  Complexities,
which the source stores as log2 of a product of domain sizes and compares
against maxComplexity, are embedded in product form and compared against
budget = 2^maxComplexity; the reparameterisation is strictly monotone, so
all comparisons agree with the source's under exact arithmetic.

Components whose headers are absent from the sources (table.h, treedecomp.h,
task.h, merger.h, buckettree.h, operations/min.h, operations/logsumprod.h)
are modelled from the spec; each such definition carries a doc comment
starting with "Modelled from the spec:".
-/

namespace Orang

/-- Failure kinds of the orang exception hierarchy (exception.h).  The C
entry points of interface.cc convert them into a non-zero status plus an
error-message buffer. -/
inductive OrangError where
  | invalidArgument
  | lengthError
  | operationUnavailable
  | outOfMemory
deriving DecidableEq

/-! ## Dummy algebra (operations/dummy.h) -/

namespace DummyOperations

/-- DummyOperations::combine (dummy.h): `throw OperationUnavailable()`. -/
def combine (_x _y : Int) : Except OrangError Int :=
  Except.error OrangError.operationUnavailable

/-- DummyOperations::combineIdentity (dummy.h): `throw OperationUnavailable()`. -/
def combineIdentity : Except OrangError Int :=
  Except.error OrangError.operationUnavailable

/-- DummyOperations::marginalizer (dummy.h): `throw OperationUnavailable()`. -/
def marginalizer : Except OrangError Unit :=
  Except.error OrangError.operationUnavailable

/-- DummyOperations::solvableMarginalizer (dummy.h): `throw OperationUnavailable()`. -/
def solvableMarginalizer : Except OrangError Unit :=
  Except.error OrangError.operationUnavailable

/-- DummyOperations::initSolution (dummy.h): `throw OperationUnavailable()`. -/
def initSolution (_x0 : List ℕ) : Except OrangError Int :=
  Except.error OrangError.operationUnavailable

end DummyOperations

/-! ## Factor tables

A packed table (spec section 3; table.h is absent from the sources): a
strictly ascending scope, matching domain sizes, and a flat value array of
length `∏ dᵢ`, linear index `Σ aᵢ sᵢ` with `s₁ = 1`, `sᵢ₊₁ = sᵢ dᵢ`. -/

structure TableQ where
  scope : List ℕ
  domSizes : List ℕ
  values : List ℚ
deriving DecidableEq

/-! ## Ising adapter (conversions.cpp, isingTables) -/

namespace Ising

/-- The unary table emitted for a nonzero field entry `hᵢ`
(conversions.cpp, first loop of isingTables). -/
def unaryTable (beta hi : ℚ) (i : ℕ) : TableQ :=
  ⟨[i], [2], [beta * hi, -(beta * hi)]⟩

/-- The pairwise table emitted for a nonzero off-diagonal coupler entry
(conversions.cpp, second loop of isingTables). -/
def pairTable (beta w : ℚ) (i j : ℕ) : TableQ :=
  ⟨[min i j, max i j], [2, 2], [-(beta * w), beta * w, beta * w, -(beta * w)]⟩

/-- Inner loop of isingTables over the columns of one row of J: appends a
pairwise table per nonzero entry, throwing std::invalid_argument on a
nonzero diagonal entry. -/
def pairRow (beta : ℚ) (jv : ℕ → ℕ → ℚ) (i : ℕ) :
    List ℕ → List TableQ → Except OrangError (List TableQ)
  | [], acc => Except.ok acc
  | j :: js, acc =>
    if jv i j ≠ 0 then
      if i = j then Except.error OrangError.invalidArgument
      else pairRow beta jv i js (acc ++ [pairTable beta (jv i j) i j])
    else pairRow beta jv i js acc

/-- Outer loop of isingTables over the rows of J; an exception from any row
aborts the whole traversal. -/
def pairRows (beta : ℚ) (jv : ℕ → ℕ → ℚ) (jCols : ℕ) :
    List ℕ → List TableQ → Except OrangError (List TableQ)
  | [], acc => Except.ok acc
  | i :: is, acc =>
    match pairRow beta jv i (List.range jCols) acc with
    | Except.error e => Except.error e
    | Except.ok acc2 => pairRows beta jv jCols is acc2

/-- isingTables (conversions.cpp): one unary table per nonzero `h` entry,
then one pairwise table per nonzero `J` entry traversed row-major; a nonzero
diagonal `J` entry raises std::invalid_argument, aborting the whole call. -/
def isingTables (hLen : ℕ) (hv : ℕ → ℚ) (jRows jCols : ℕ) (jv : ℕ → ℕ → ℚ)
    (beta : ℚ) : Except OrangError (List TableQ) :=
  let unary := (List.range hLen).foldl
    (fun acc i => if hv i ≠ 0 then acc ++ [unaryTable beta (hv i) i] else acc) []
  match pairRows beta jv jCols (List.range jRows) [] with
  | Except.error e => Except.error e
  | Except.ok pairs => Except.ok (unary ++ pairs)

/-- The unary tables of the adapter, stated as a comprehension: one table
per nonzero field entry, in index order. -/
def unarySpec (hLen : ℕ) (hv : ℕ → ℚ) (beta : ℚ) : List TableQ :=
  ((List.range hLen).filter (fun i => decide (hv i ≠ 0))).map
    (fun i => unaryTable beta (hv i) i)

/-- The pairwise tables of the adapter, stated as a comprehension: one table
per nonzero coupler entry, in row-major order. -/
def pairSpec (jRows jCols : ℕ) (jv : ℕ → ℕ → ℚ) (beta : ℚ) : List TableQ :=
  (((List.range jRows).flatMap (fun i => (List.range jCols).map (fun j => (i, j)))).filter
    (fun p => decide (jv p.1 p.2 ≠ 0))).map
    (fun p => pairTable beta (jv p.1 p.2) p.1 p.2)

end Ising

/-! ## initState validation (interface.cc, optimize lines 219-230 and
sample lines 320-331) -/

/-- The per-entry copy loop of interface.cc: `x0[i] = initState[i]` followed
by the check `x0[i] > task.domSize(i)`, which throws on the first violating
entry.  Note the comparison is strict. -/
def copyX0 (ds : ℕ → ℕ) : List (ℕ × ℕ) → Except String Unit
  | [] => Except.ok ()
  | (i, x) :: rest =>
    if x > ds i then Except.error "x0 entry is invalid: larger than domain size"
    else copyX0 ds rest

/-- The initState validation of the optimize and sample entry points
(interface.cc): a non-empty initState must have exactly numVars entries, and
each entry is copied subject to the strict check of `copyX0`; an empty
initState leaves x0 as all zeros. -/
def checkX0 (initState : List ℕ) (numVars : ℕ) (ds : ℕ → ℕ) :
    Except String (List ℕ) :=
  if 0 < initState.length ∧ initState.length ≠ numVars then
    Except.error "x0 parameter must have numVars variables"
  else do
    copyX0 ds initState.enum
    Except.ok (if initState.length = 0 then List.replicate numVars 0 else initState)

/-! ## The sample entry point prologue (interface.cc, lines 293-305)

The C function receives raw output pointers.  We track only their nullity
and the order of the guard checks and the unconditional stores
`*samples = NULL; *marginals = NULL;` that precede any result
construction.  Writing through a null pointer is rendered as `nullDeref`. -/

inductive PrologueOutcome where
  | fails (msg : String)
  | nullDeref
  | proceeds
deriving DecidableEq

/-- The prologue of the C `sample` entry point (interface.cc): null guards
for logZ, samples and varNum; marginals and marginals_len are only guarded
when returnMarginals is set; then the stores `*samples = NULL` and
`*marginals = NULL` run unconditionally. -/
def samplePrologue (logZNull samplesNull varNumNull marginalsNull
    marginalsLenNull returnMarginals : Bool) : PrologueOutcome :=
  if logZNull then PrologueOutcome.fails "logZ is NULL"
  else if samplesNull then PrologueOutcome.fails "samples is NULL"
  else if varNumNull then PrologueOutcome.fails "varNum is NULL"
  else if returnMarginals && marginalsNull then PrologueOutcome.fails "marginals is NULL"
  else if returnMarginals && marginalsLenNull then PrologueOutcome.fails "marginals_len is NULL"
  else if samplesNull then PrologueOutcome.nullDeref
  else if marginalsNull then PrologueOutcome.nullDeref
  else PrologueOutcome.proceeds

/-! ## RNG seeding of the sample entry point (interface.cc, lines 287-310)

The C function keeps two static mt19937 engines: a default one, whose state
persists across calls, and a seeded one, re-seeded on every call that passes
`seed >= 0`.  The engines themselves are external collaborators (the spec
treats the random-number source as a parameter), so an engine's output is
modelled as a stream `ℕ → ℚ` of draws, and the family of streams produced by
seeding is a parameter `mt : ℕ → ℕ → ℚ`. -/

structure SampleArgs where
  tables : List TableQ
  variableOrder : List ℕ
  maxComplexity : ℚ
  sampleNum : ℕ
  initState : List ℕ
  minVars : ℕ
  returnMarginals : Bool
  seed : ℤ

/-- The stream the sample entry point draws from: the freshly re-seeded
engine when `seed >= 0`, otherwise the persistent default engine
(interface.cc lines 306-310). -/
def sampleRngStream (mt : ℕ → ℕ → ℚ) (defaultStream : ℕ → ℚ) (seed : ℤ) :
    ℕ → ℚ :=
  if 0 ≤ seed then mt seed.toNat else defaultStream

/-- Modelled from the spec: the body of `sample` past the prologue
(task construction, tree decomposition, bucket tree, sampling loop) lives in
headers absent from the sources (task.h, treedecomp.h, buckettree.h,
operations/logsumprod.h).  Per spec section 5 it is deterministic given the
inputs and the RNG stream, so it is carried as an arbitrary function `core`
from the arguments and the stream to an output together with the number of
draws consumed.  `cSampleCall` wires in the seeding policy of interface.cc
and threads the default engine's state across calls. -/
def cSampleCall {Out : Type} (core : SampleArgs → (ℕ → ℚ) → Out × ℕ)
    (mt : ℕ → ℕ → ℚ) (args : SampleArgs) (defaultStream : ℕ → ℚ) :
    Out × (ℕ → ℚ) :=
  let stream := sampleRngStream mt defaultStream args.seed
  let res := core args stream
  (res.1, if 0 ≤ args.seed then defaultStream else fun k => defaultStream (k + res.2))

/-! ## Greedy variable-ordering heuristic (varorder.h)

The state of `greedyVarOrder`: one record per variable, mirroring
`greedyvarorder::internal::Variable`.  The `complexity` double of the source
is `log2` of a product of domain sizes; `cplx` stores that product itself,
and the budget parameter stands for `2^maxComplexity`, so every comparison
`complexity <= maxComplexity` of the source becomes `cplx ≤ budget` here —
an exact, strictly monotone reparameterisation. -/

namespace Greedy

/-- The Heuristics enum of varorder.h. -/
inductive Heuristic where
  | minDegree
  | weightedMinDegree
  | minFill
  | weightedMinFill
deriving DecidableEq

/-- One entry of the multi-index variable container (struct Variable of
varorder.h).  The variable's index is its position in the ambient state. -/
structure GVar where
  domSize : ℕ
  processed : Bool
  clampRank : ℤ
  clampValue : ℕ
  cost : ℕ
  cplx : ℕ
  adj : Finset ℕ

/-- The mutable container of all variables, indexed by variable number.
Entries at positions `≥ numVars` are junk and never inspected. -/
structure GState where
  vars : ℕ → GVar

/-- UpdateMinFillVarData::updateCost (varorder.h): the number of pairs of
neighbours of `v` that are not adjacent to each other (counted as pairs
`u < w` with `w` missing from `u`'s adjacency list). -/
def minFillCost (st : GState) (v : ℕ) : ℕ :=
  ∑ u in (st.vars v).adj,
    ((st.vars v).adj.filter (fun w => u < w ∧ w ∉ (st.vars u).adj)).card

/-- UpdateWeightedMinFillVarData::updateCost (varorder.h): each missing pair
is weighted by the product of the two domain sizes. -/
def wMinFillCost (st : GState) (v : ℕ) : ℕ :=
  ∑ u in (st.vars v).adj,
    (st.vars u).domSize *
      ∑ w in (st.vars v).adj.filter (fun w => u < w ∧ w ∉ (st.vars u).adj),
        (st.vars w).domSize

/-- The heuristic-specific cost of a variable (the four UpdateVarData
subclasses of varorder.h). -/
def heurCost (h : Heuristic) (st : GState) (v : ℕ) : ℕ :=
  match h with
  | Heuristic.minDegree => (st.vars v).adj.card
  | Heuristic.weightedMinDegree => (st.vars v).domSize * (st.vars v).adj.card
  | Heuristic.minFill => minFillCost st v
  | Heuristic.weightedMinFill => wMinFillCost st v

/-- UpdateVarData::operator() (varorder.h): recompute clampValue, the
elimination complexity (in product form) and the heuristic cost of one
variable from the current adjacency lists. -/
def updateVar (h : Heuristic) (st : GState) (v : ℕ) : GVar :=
  let g := st.vars v
  { g with
    clampValue := g.domSize * g.adj.card
    cplx := g.domSize * g.adj.prod (fun w => (st.vars w).domSize)
    cost := heurCost h st v }

/-- Recompute the derived fields of every variable in `s`, all against the
same pre-update state (the second BOOST_FOREACH loops of greedyVarOrder). -/
def updateCosts (h : Heuristic) (st : GState) (s : Finset ℕ) : GState :=
  ⟨fun w => if w ∈ s then updateVar h st w else st.vars w⟩

/-- The affected-variable sets (MinDegreeAffectedVars and
MinFillAffectedVars of varorder.h), computed before any modification. -/
def affectedVars (h : Heuristic) (st : GState) (v : ℕ) : Finset ℕ :=
  match h with
  | Heuristic.minDegree | Heuristic.weightedMinDegree => (st.vars v).adj
  | Heuristic.minFill | Heuristic.weightedMinFill =>
      ((st.vars v).adj ∪ (st.vars v).adj.biUnion (fun u => (st.vars u).adj)).erase v

/-- selectVar (varorder.h): from a candidate window of `totalRange` entries
whose first `baseRange` entries are the tied-cheapest group, widen the
window by `selectionScale`, draw one random number `u`, take the floor of
`selectionRange * u` and clamp it into `[0, totalRange - 1]`.  Returns the
offset from the beginning of the window. -/
def selectVar (baseRange totalRange : ℕ) (scale u : ℚ) : ℕ :=
  let selectionRange : ℚ := min ((baseRange : ℚ) * scale) (totalRange : ℚ)
  (min (max ⌊selectionRange * u⌋ 0) ((totalRange : ℤ) - 1)).toNat

/-- Ordering of the cost index (CostCmp of varorder.h) restricted to the
unprocessed, within-budget variables, where it is total: increasing cost,
ties by variable index. -/
def costRel (st : GState) (a b : ℕ) : Prop :=
  (st.vars a).cost < (st.vars b).cost ∨
    ((st.vars a).cost = (st.vars b).cost ∧ a ≤ b)

instance costRelDecidable (st : GState) : DecidableRel (costRel st) :=
  fun _ _ => inferInstanceAs (Decidable (_ ∨ _))

/-- Ordering of the clamp index (ClampCmp of varorder.h) restricted to the
unprocessed variables, where it is total: increasing clampRank, then
decreasing clampValue, then increasing variable index. -/
def clampRel (st : GState) (a b : ℕ) : Prop :=
  (st.vars a).clampRank < (st.vars b).clampRank ∨
    ((st.vars a).clampRank = (st.vars b).clampRank ∧
      ((st.vars b).clampValue < (st.vars a).clampValue ∨
        ((st.vars a).clampValue = (st.vars b).clampValue ∧ a ≤ b)))

instance clampRelDecidable (st : GState) : DecidableRel (clampRel st) :=
  fun _ _ => inferInstanceAs (Decidable (_ ∨ _))

/-- The unprocessed variables, in index order. -/
def unprocList (n : ℕ) (st : GState) : List ℕ :=
  (List.range n).filter (fun v => !(st.vars v).processed)

/-- The unprocessed variables whose elimination complexity is within budget:
the initial segment of the cost index (everything before
`upper_bound(complexityUpperBound maxComplexity)` in greedyVarOrder). -/
def eligList (n : ℕ) (budget : ℚ) (st : GState) : List ℕ :=
  (List.range n).filter
    (fun v => !(st.vars v).processed && decide (((st.vars v).cplx : ℚ) ≤ budget))

/-- The elimination update of the adjacency lists (greedyVarOrder,
elimination branch): mark `v` processed, and for every neighbour `u` of `v`
insert `v`'s neighbours into `u`'s list and remove `u` itself and `v`
(ElimNeighbour of varorder.h). -/
def elimAdjUpdate (st : GState) (v : ℕ) : GState :=
  let adjV := (st.vars v).adj
  ⟨fun w =>
    if w = v then { st.vars v with processed := true }
    else if w ∈ adjV then
      { st.vars w with adj := (((st.vars w).adj ∪ adjV).erase w).erase v }
    else st.vars w⟩

/-- The full state effect of eliminating `v`: rebuild the adjacency lists
(ElimNeighbour applied to the neighbours of `v`, `v` marked processed) and
recompute the derived data of the affected variables. -/
def elimApply (h : Heuristic) (st : GState) (v : ℕ) : GState :=
  updateCosts h (elimAdjUpdate st v) (affectedVars h st v)

/-- The variable the elimination branch picks: `selectVar` offsets into the
cost index from its beginning, whose window is the within-budget initial
segment with the tied-cheapest group first. -/
def elimPick (budget scale : ℚ) (n : ℕ) (u : ℚ) (st : GState) : ℕ :=
  let elig := eligList n budget st
  let sorted := elig.insertionSort (costRel st)
  let c0 := (st.vars sorted.headI).cost
  let baseRange := (elig.filter (fun w => decide ((st.vars w).cost = c0))).length
  sorted.getD (selectVar baseRange elig.length scale u) 0

/-- The elimination branch of the main loop of greedyVarOrder: pick a
variable, append it to the order and apply the elimination update. -/
def elimBranch (h : Heuristic) (budget scale : ℚ) (n : ℕ) (u : ℚ)
    (st : GState) : ℕ × GState :=
  (elimPick budget scale n u st, elimApply h st (elimPick budget scale n u st))

/-- The clampRank-decrement pass at the top of the clamp branch: every
unprocessed variable with clampRank strictly above the last clamped rank is
decremented once (DecrementClampRank of varorder.h). -/
def decPhase (lcr : ℤ) (st : GState) : GState :=
  if 0 ≤ lcr then
    ⟨fun w =>
      if (st.vars w).processed = false ∧ lcr < (st.vars w).clampRank then
        { st.vars w with clampRank := (st.vars w).clampRank - 1 }
      else st.vars w⟩
  else st

/-- The adjacency-list effect of clamping `v`: mark `v` processed and remove
it from its neighbours' adjacency lists (ClampNeighbour of varorder.h). -/
def clampAdjUpdate (st : GState) (v : ℕ) : GState :=
  let adjV := (st.vars v).adj
  ⟨fun w =>
    if w = v then { st.vars v with processed := true }
    else if w ∈ adjV then { st.vars w with adj := (st.vars w).adj.erase v }
    else st.vars w⟩

/-- The full state effect of clamping `v`: the adjacency update followed by
recomputation of the derived data of `v`'s neighbours. -/
def clampApply (h : Heuristic) (st : GState) (v : ℕ) : GState :=
  updateCosts h (clampAdjUpdate st v) (st.vars v).adj

/-- The variable the clamp branch picks, from the post-decrement state:
`selectVar` offsets into the clamp index from its beginning, whose window is
the minimal-clampRank group with the (clampRank, clampValue) ties first. -/
def clampPick (scale : ℚ) (n : ℕ) (u : ℚ) (st : GState) : ℕ :=
  let unp := unprocList n st
  let sorted := unp.insertionSort (clampRel st)
  let v0 := sorted.headI
  let r0 := (st.vars v0).clampRank
  let cv0 := (st.vars v0).clampValue
  let totalRange := (unp.filter (fun w => decide ((st.vars w).clampRank = r0))).length
  let baseRange := (unp.filter (fun w =>
    decide ((st.vars w).clampRank = r0 ∧ (st.vars w).clampValue = cv0))).length
  sorted.getD (selectVar baseRange totalRange scale u) 0

/-- The clamp branch of the main loop of greedyVarOrder: run the
clampRank-decrement pass, pick a variable from the minimal-clampRank group,
apply the clamp update and record the picked variable's clampRank as the new
lastClampRank. -/
def clampBranch (h : Heuristic) (scale : ℚ) (n : ℕ) (u : ℚ) (st0 : GState)
    (lcr : ℤ) : ℕ × GState × ℤ :=
  let st := decPhase lcr st0
  let v := clampPick scale n u st
  (v, clampApply h st v, (st.vars v).clampRank)

/-- One iteration of the main loop of greedyVarOrder after the termination
check: eliminate when the cheapest unprocessed variable fits the budget
(equivalently, when some unprocessed variable does), otherwise clamp.
The first component is the variable appended to the elimination order,
`none` when the iteration clamped instead. -/
def greedyStep (h : Heuristic) (budget scale : ℚ) (n : ℕ) (u : ℚ)
    (st : GState) (lcr : ℤ) : Option ℕ × GState × ℤ :=
  if (eligList n budget st).isEmpty then
    let r := clampBranch h scale n u st lcr
    (none, r.2.1, r.2.2)
  else
    let r := elimBranch h budget scale n u st
    (some r.1, r.2, lcr)

/-- The main loop of greedyVarOrder.  Each iteration processes exactly one
variable, so fuel `numVars` suffices; the loop exits when the head of the
cost index is processed, i.e. when no unprocessed variable remains. -/
def greedyLoop (h : Heuristic) (budget scale : ℚ) (rng : ℕ → ℚ) (n : ℕ) :
    ℕ → GState → ℤ → ℕ → List ℕ
  | 0, _, _, _ => []
  | fuel + 1, st, lcr, k =>
    if (unprocList n st).isEmpty then []
    else
      match greedyStep h budget scale n (rng k) st lcr with
      | (some v, st2, lcr2) => v :: greedyLoop h budget scale rng n fuel st2 lcr2 (k + 1)
      | (none, st2, lcr2) => greedyLoop h budget scale rng n fuel st2 lcr2 (k + 1)

/-- The task data greedyVarOrder reads: number of variables, domain sizes,
the primal graph's adjacency, and the clampRank vector (as a function). -/
structure GreedyInput where
  n : ℕ
  ds : ℕ → ℕ
  adj0 : ℕ → Finset ℕ
  rank : ℕ → ℤ

/-- Construction of one Variable (varorder.h): pre-clamped variables
(negative clampRank) start processed, and adjacency lists only retain
neighbours with non-negative clampRank. -/
def initVar (inp : GreedyInput) (v : ℕ) : GVar :=
  { domSize := inp.ds v
    processed := decide (inp.rank v < 0)
    clampRank := inp.rank v
    clampValue := 0
    cost := 0
    cplx := 0
    adj := (inp.adj0 v).filter (fun w => 0 ≤ inp.rank w) }

/-- The state after VarContainer construction and the initial update loop of
greedyVarOrder, which applies UpdateVarData to every variable. -/
def initGState (h : Heuristic) (inp : GreedyInput) : GState :=
  let st0 : GState := ⟨fun v => initVar inp v⟩
  ⟨fun v => updateVar h st0 v⟩

/-- The per-variable invariant that the stored domain sizes are the task's. -/
def DomFixed (ds : ℕ → ℕ) (st : GState) : Prop :=
  ∀ v, (st.vars v).domSize = ds v

/-- The invariant that no adjacency list contains its own variable. -/
def AdjIrr (st : GState) : Prop :=
  ∀ v, v ∉ (st.vars v).adj

/-- The invariant that the stored elimination-complexity product of every
unprocessed variable agrees with its adjacency list. -/
def CplxOK (st : GState) : Prop :=
  ∀ v, (st.vars v).processed = false →
    (st.vars v).cplx = (st.vars v).domSize * (st.vars v).adj.prod (fun w => (st.vars w).domSize)

/-- The simulation invariant: every edge of the tree-decomposition working
graph is present in the greedy state's adjacency lists. -/
def WDom (st : GState) (W : ℕ → Finset ℕ) : Prop :=
  ∀ u w, w ∈ W u → w ∈ (st.vars u).adj

/-- greedyVarOrder (varorder.h): validate the clampRank length, return the
empty order for an empty task, otherwise run the main loop. -/
def greedyVarOrder (n : ℕ) (ds : ℕ → ℕ) (adj0 : ℕ → Finset ℕ)
    (clampRank : List ℤ) (h : Heuristic) (budget scale : ℚ) (rng : ℕ → ℚ) :
    Except OrangError (List ℕ) :=
  if clampRank.length ≠ n then Except.error OrangError.invalidArgument
  else if n = 0 then Except.ok []
  else Except.ok (greedyLoop h budget scale rng n n
    (initGState h ⟨n, ds, adj0, fun v => clampRank.getD v 0⟩) (-1) 0)

end Greedy

/-! ## Tree decomposition (spec section 4.3)

Modelled from the spec: treedecomp.h is absent from the sources.  Spec 4.3:
process the elimination order in sequence; at each step the separator of the
node is the set of current neighbours of the eliminated variable among the
not-yet-eliminated variables of the order (clamped variables, i.e. variables
outside the order, are excluded from the working graph); eliminating the
variable inserts a clique among those neighbours.  The complexity of the
decomposition is log2 of the largest product of domain sizes over a node
scope `{nodeVar} ∪ sepVars`; in product form, complexity ≤ maxComplexity
iff every node scope's product is at most budget = 2^maxComplexity. -/

namespace Decomp

/-- The working graph restricted to the variables of the elimination order
(variables outside the order are clamped and excluded, spec 4.3). -/
def initW (adj0 : ℕ → Finset ℕ) (ord : List ℕ) : ℕ → Finset ℕ :=
  fun u => if u ∈ ord then (adj0 u).filter (fun w => w ∈ ord) else ∅

/-- Eliminating `v` from the working graph: remove `v` and insert a clique
among its neighbours (spec 4.3). -/
def elimGraphStep (W : ℕ → Finset ℕ) (v : ℕ) : ℕ → Finset ℕ :=
  fun u =>
    if u = v then ∅
    else if u ∈ W v then ((W u ∪ W v).erase u).erase v
    else (W u).erase v

/-- The nodes of the decomposition, in elimination order: each is the
eliminated variable paired with its separator. -/
def decompNodes (W : ℕ → Finset ℕ) : List ℕ → List (ℕ × Finset ℕ)
  | [] => []
  | v :: rest => (v, W v) :: decompNodes (elimGraphStep W v) rest

/-- The node scopes `{nodeVar} ∪ sepVars` of the decomposition. -/
def decompScopes (W : ℕ → Finset ℕ) (ord : List ℕ) : List (Finset ℕ) :=
  (decompNodes W ord).map (fun p => insert p.1 p.2)

/-- TreeDecomp complexity in product form: `complexity() ≤ maxComplexity`
iff every node scope's domain-size product is at most
budget = 2^maxComplexity. -/
def complexityWithin (adj0 : ℕ → Finset ℕ) (ord : List ℕ) (ds : ℕ → ℕ)
    (budget : ℚ) : Prop :=
  ∀ s ∈ decompScopes (initW adj0 ord) ord, ((s.prod ds : ℕ) : ℚ) ≤ budget

end Decomp

/-! ## Assignments, energies and the optimize result (spec sections 3, 6.1)

Modelled from the spec: table.h, task.h, buckettree.h and operations/min.h
are absent from the sources.  The energy of an assignment is the min-plus
combination (sum) of the table values at that assignment (spec 8.1); the
solve result with `maxSolutions = k` consists of the top-k assignments by
increasing energy, ties broken lexicographically over the domain-index
vector (spec 6.1 and 4.7), confirmed by the MinSolutionSet expectations of
tests/cpp/test-op-min.cpp. -/

/-- All assignments to the given domain-size vector, in lexicographic order
with the first variable most significant. -/
def allAssignments : List ℕ → List (List ℕ)
  | [] => [[]]
  | d :: rest => (List.range d).flatMap (fun a => (allAssignments rest).map (fun x => a :: x))

/-- The packed linear index of an assignment within a table (spec section 3:
`s₁ = 1`, `sᵢ₊₁ = sᵢ dᵢ`). -/
def packedIndex (x : List ℕ) : List (ℕ × ℕ) → ℕ → ℕ
  | [], _ => 0
  | (v, d) :: rest, stride => x.getD v 0 * stride + packedIndex x rest (stride * d)

/-- The value a table contributes at a global assignment. -/
def tableVal (t : TableQ) (x : List ℕ) : ℚ :=
  t.values.getD (packedIndex x (t.scope.zip t.domSizes) 1) 0

/-- The min-plus energy of an assignment: the sum of all table values
(spec 8.1: `problemValue` under min-plus is `min_x Σ_T T(x)`). -/
def energyQ (tables : List TableQ) (x : List ℕ) : ℚ :=
  (tables.map (fun t => tableVal t x)).sum

/-- Lexicographic comparison of two domain-index vectors. -/
def lexLeB : List ℕ → List ℕ → Bool
  | [], _ => true
  | _ :: _, [] => false
  | a :: as, b :: bs => decide (a < b) || (decide (a = b) && lexLeB as bs)

/-- The solution order of the min-plus solver: increasing energy, ties
broken lexicographically over the assignment vector (spec 4.7). -/
def solRel (tables : List TableQ) (x y : List ℕ) : Prop :=
  energyQ tables x < energyQ tables y ∨
    (energyQ tables x = energyQ tables y ∧ lexLeB x y = true)

instance solRelDecidable (tables : List TableQ) : DecidableRel (solRel tables) :=
  fun _ _ => inferInstanceAs (Decidable (_ ∨ _))

/-- All assignments sorted in the solution order. -/
def sortedAssignments (tables : List TableQ) (doms : List ℕ) : List (List ℕ) :=
  (allAssignments doms).insertionSort (solRel tables)

/-- Modelled from the spec: the solution list of
`optimize(maxSolutions = k)` — the top-k assignments by increasing energy,
ties broken lexicographically (spec 6.1). -/
def optSolutions (tables : List TableQ) (doms : List ℕ) (k : ℕ) : List (List ℕ) :=
  (sortedAssignments tables doms).take k

/-- The energies array of `optimize(maxSolutions = k)`, aligned with
`optSolutions`. -/
def optEnergies (tables : List TableQ) (doms : List ℕ) (k : ℕ) : List ℚ :=
  (optSolutions tables doms k).map (energyQ tables)

/-- Modelled from the spec: the scalar returned by
`optimize(maxSolutions = 0)` — the minimum energy over all assignments
(spec 8.1). -/
def optScalar (tables : List TableQ) (doms : List ℕ) : ℚ :=
  ((allAssignments doms).map (energyQ tables)).foldr min
    (((allAssignments doms).map (energyQ tables)).headI)

/-- The value asserted by the claim under test: the k lexicographically
smallest elements of the set of minimizing assignments. -/
def claimedSolutions (tables : List TableQ) (doms : List ℕ) (k : ℕ) : List (List ℕ) :=
  (((allAssignments doms).filter
      (fun x => decide (energyQ tables x = optScalar tables doms))).insertionSort
    (fun a b => lexLeB a b = true)).take k

instance lexLeBPropDecidable : DecidableRel (fun a b : List ℕ => lexLeB a b = true) :=
  fun _ _ => inferInstanceAs (Decidable (_ = _))

/-! ## Marginals (interface.cc createMarginals; spec sections 4.5, 6.1)

The scopes and counts of the marginal list follow createMarginals of
interface.cc, which is among the sources: per bucket-tree node, one unary
marginal over the node variable and one pairwise marginal per separator
variable, each marginal normalised by `exp(x - logPf)` with `logPf` the
log-sum marginalisation of the whole merged table.  The merged table values
themselves come from merger.h / buckettree.h / operations/logsumprod.h,
which are absent from the sources, and are modelled from the spec as the
exact log-space marginal tables of the Boltzmann weights `exp(Σ_T T(x))`
(spec 4.5 and scenario C). -/

/-- The primal graph of a table list (graph.h, built from all in-scope
pairs): neighbours of `u` are all other variables sharing a table scope
with `u`. -/
def primalAdj (tables : List TableQ) (u : ℕ) : Finset ℕ :=
  (((tables.filter (fun t => decide (u ∈ t.scope))).flatMap (fun t => t.scope)).toFinset).erase u

/-- The marginal scope list of createMarginals (interface.cc): per node, the
singleton scope of the node variable followed by one ascending pair per
separator variable. -/
def marginalScopes (nodes : List (ℕ × Finset ℕ)) : List (List ℕ) :=
  nodes.flatMap (fun p =>
    [p.1] :: (p.2.sort (· ≤ ·)).map (fun v => if v < p.1 then [v, p.1] else [p.1, v]))

/-- The domain size of a variable as read from the domain-size vector; a
variable beyond the vector has domain size 1. -/
def domAt (doms : List ℕ) (v : ℕ) : ℕ := doms.getD v 1

/-- The number of values of a merged table over a scope: the product of the
scope's domain sizes (spec section 3, `V.len = ∏ dᵢ`). -/
def scopeSize (doms : List ℕ) (s : List ℕ) : ℕ :=
  (s.map (domAt doms)).prod

/-- The value-array lengths of the marginals returned by the sample entry
point, as allocated by createMarginals (interface.cc,
`mTable->size() * sizeof(double)`). -/
def marginalSizesModel (tables : List TableQ) (doms : List ℕ) (ord : List ℕ) : List ℕ :=
  (marginalScopes (Decomp.decompNodes (Decomp.initW (primalAdj tables) ord) ord)).map
    (scopeSize doms)

/-- Whether a global assignment `x` restricts to the partial assignment `y`
on the scope `S`. -/
def agreesOn (S : List ℕ) (y x : List ℕ) : Prop :=
  ∀ i, i < S.length → x.getD (S.getD i 0) 0 = y.getD i 0

instance agreesOnDecidable (S y x : List ℕ) : Decidable (agreesOn S y x) :=
  Nat.decidableBallLT _ _

/-- Modelled from the spec: the merged log-space table over scope `S` —
entry `y` holds the logarithm of the total Boltzmann weight
`Σ_{x extends y} exp(Σ_T T(x))` (spec 4.5, scenario C). -/
noncomputable def mergedVals (tables : List TableQ) (doms : List ℕ) (S : List ℕ) : List ℝ :=
  (allAssignments (S.map (domAt doms))).map (fun y =>
    Real.log ((((allAssignments doms).filter (fun x => decide (agreesOn S y x))).map
      (fun x => Real.exp ((energyQ tables x : ℚ) : ℝ))).sum))

/-- Modelled from the spec: the log-sum marginalizer value of a whole table
(spec 4.4): `M + log Σᵢ exp(vᵢ − M)` with `M` the running maximum. -/
noncomputable def logSumMrg (l : List ℝ) : ℝ :=
  (l.foldr max l.headI) + Real.log ((l.map (fun x => Real.exp (x - l.foldr max l.headI))).sum)

/-- The Normalizer of interface.cc applied to every entry of a merged
table: `exp(x - logPf)` with `logPf` the log-sum marginalisation of the
table. -/
noncomputable def normalizeVals (l : List ℝ) : List ℝ :=
  l.map (fun x => Real.exp (x - logSumMrg l))

/-- One marginal of the C interface (struct Marginal of interface.h):
a scope of one or two variables and the normalised values. -/
structure MarginalR where
  vars : List ℕ
  values : List ℝ

/-- createMarginals (interface.cc): the flat marginal list of the sample
entry point — per bucket-tree node one unary marginal and one pairwise
marginal per separator variable, each with normalised values.  The bucket
tree nodes come from the decomposition of the task's primal graph with the
supplied elimination order. -/
noncomputable def createMarginalsModel (tables : List TableQ) (doms : List ℕ)
    (ord : List ℕ) : List MarginalR :=
  (marginalScopes (Decomp.decompNodes (Decomp.initW (primalAdj tables) ord) ord)).map
    (fun S => ⟨S, normalizeVals (mergedVals tables doms S)⟩)

/-! ## Concrete states used by the witnesses -/

/-- A one-variable greedy state: domain size 2, unprocessed, clampRank 0,
elimination complexity 2, empty adjacency. -/
def witnessGState : Greedy.GState :=
  ⟨fun _ => ⟨2, false, 0, 0, 0, 2, ∅⟩⟩

/-- A concrete argument record for the seeded sample entry point. -/
def witnessArgs : SampleArgs :=
  ⟨[⟨[0], [2], [0, 0]⟩], [0], 5, 3, [], 1, false, 42⟩

instance exceptDecidableEq {ε α : Type} [DecidableEq ε] [DecidableEq α] :
    DecidableEq (Except ε α) := fun a b =>
  match a, b with
  | Except.ok x, Except.ok y =>
    if h : x = y then isTrue (by rw [h]) else isFalse (by simp [h])
  | Except.error x, Except.error y =>
    if h : x = y then isTrue (by rw [h]) else isFalse (by simp [h])
  | Except.ok _, Except.error _ => isFalse (by simp)
  | Except.error _, Except.ok _ => isFalse (by simp)

/-! # Theorems -/

/-! ## C8 — the dummy algebra -/

/-- C8 counterexample: calling combineIdentity on DummyOperations does not
succeed — dummy.h throws OperationUnavailable from combineIdentity exactly
as from every other operation. -/
theorem dummy_combineIdentity_unavailable :
    DummyOperations.combineIdentity = Except.error OrangError.operationUnavailable := rfl

/-- C8 (amended): every operation of the dummy algebra — combine,
combineIdentity, marginalizer, solvableMarginalizer and initSolution —
fails with OPERATION_UNAVAILABLE; the dummy algebra supports only scope
inspection, and greedyVarOrder never invokes any of these operations. -/
theorem dummyOperations_all_unavailable :
    DummyOperations.combineIdentity = Except.error OrangError.operationUnavailable ∧
    (∀ x y : Int, DummyOperations.combine x y = Except.error OrangError.operationUnavailable) ∧
    DummyOperations.marginalizer = Except.error OrangError.operationUnavailable ∧
    DummyOperations.solvableMarginalizer = Except.error OrangError.operationUnavailable ∧
    (∀ x0 : List ℕ, DummyOperations.initSolution x0 = Except.error OrangError.operationUnavailable) :=
  ⟨rfl, fun _ _ => rfl, rfl, rfl, fun _ => rfl⟩

/-! ## C7 — clampRank length validation of greedyVarOrder -/

/-- C7: for every task and every clampRank vector whose length differs from
the task's number of variables, greedyVarOrder fails with INVALID_ARG
(varorder.h, the guard preceding the empty-task early return). -/
theorem greedyVarOrder_clampRank_mismatch (n : ℕ) (ds : ℕ → ℕ)
    (adj0 : ℕ → Finset ℕ) (clampRank : List ℤ) (h : Greedy.Heuristic)
    (budget scale : ℚ) (rng : ℕ → ℚ) (hlen : clampRank.length ≠ n) :
    Greedy.greedyVarOrder n ds adj0 clampRank h budget scale rng =
      Except.error OrangError.invalidArgument := by
  simp [Greedy.greedyVarOrder, hlen]

theorem greedyVarOrder_clampRank_mismatch_witness :
    ([(0 : ℤ), 0] : List ℤ).length ≠ 1 ∧
      Greedy.greedyVarOrder 1 (fun _ => 2) (fun _ => ∅) [0, 0]
        Greedy.Heuristic.minDegree 2 1 (fun _ => 0) =
        Except.error OrangError.invalidArgument :=
  ⟨by decide,
    greedyVarOrder_clampRank_mismatch 1 (fun _ => 2) (fun _ => ∅) [0, 0]
      Greedy.Heuristic.minDegree 2 1 (fun _ => 0) (by decide)⟩

/-! ## C4 — initState validation accepts the boundary value -/

/-- C4: evaluation of the initState validation at the failing input
numVars = 1, domSize(0) = 2, initState = [2]: the call is accepted, because
interface.cc checks `x0[i] > task.domSize(i)` — initState entries equal to
the domain size (an out-of-range domain index) pass the check, contradicting
the documented INVALID_ARG behaviour for `initState[i] ≥ domSize(i)`. -/
theorem checkX0_accepts_boundary : checkX0 [2] 1 (fun _ => 2) = Except.ok [2] := rfl

/-! ## C9 — the sample prologue writes through the marginals pointer -/

/-- C9: the null guard of the C sample entry point checks the marginals
pointer only when returnMarginals is set, yet the store `*marginals = NULL`
runs on every call before any result construction: with
returnMarginals = false and a NULL marginals argument the guards pass and
the store dereferences NULL, and every call that proceeds past the prologue
had a non-NULL marginals argument — so a non-NULL marginals pointer is a
precondition of every sample call. -/
theorem samplePrologue_marginals_precondition :
    (∀ mlN : Bool,
      samplePrologue false false false true mlN false = PrologueOutcome.nullDeref) ∧
    (∀ lN sN vN mN mlN rm : Bool,
      samplePrologue lN sN vN mN mlN rm = PrologueOutcome.proceeds → mN = false) := by
  constructor
  · intro mlN; cases mlN <;> rfl
  · intro lN sN vN mN mlN rm hp
    cases lN <;> cases sN <;> cases vN <;> cases mN <;> cases mlN <;> cases rm <;>
      simp_all [samplePrologue]

theorem samplePrologue_marginals_precondition_witness :
    samplePrologue false false false true true false = PrologueOutcome.nullDeref ∧
      (false : Bool) = false :=
  ⟨samplePrologue_marginals_precondition.1 true,
    samplePrologue_marginals_precondition.2 false false false false false true (by decide)⟩

/-! ## C5 — reproducibility of seeded sampling -/

/-- C5: a sample call with a given seed S ≥ 0, executed twice with the same
tables, variable order, maxComplexity, sampleNum, initState, minVars and
returnMarginals, returns identical samples and logZ: the entry point
re-seeds its static engine whenever seed ≥ 0, so the draw stream — and with
it the output of the deterministic core — is a function of the arguments
alone, independent of the persistent default-engine state. -/
theorem cSampleCall_reproducible {Out : Type}
    (core : SampleArgs → (ℕ → ℚ) → Out × ℕ) (mt : ℕ → ℕ → ℚ)
    (args : SampleArgs) (s0 : ℕ → ℚ) (hseed : 0 ≤ args.seed) :
    (cSampleCall core mt args ((cSampleCall core mt args s0).2)).1 =
      (cSampleCall core mt args s0).1 := by
  simp [cSampleCall, sampleRngStream, hseed]

theorem cSampleCall_reproducible_witness :
    (cSampleCall (fun _ _ => ((0 : ℕ), 0)) (fun _ _ => 0) witnessArgs
        ((cSampleCall (fun _ _ => ((0 : ℕ), 0)) (fun _ _ => 0) witnessArgs (fun _ => 0)).2)).1 =
      (cSampleCall (fun _ _ => ((0 : ℕ), 0)) (fun _ _ => 0) witnessArgs (fun _ => 0)).1 :=
  cSampleCall_reproducible (fun _ _ => ((0 : ℕ), 0)) (fun _ _ => 0) witnessArgs
    (fun _ => 0) (by decide)

/-! ## C6 — the Ising adapter -/

theorem foldl_if_append {α β : Type} (P : α → Prop) [DecidablePred P] (f : α → β) :
    ∀ (l : List α) (acc : List β),
      l.foldl (fun a i => if P i then a ++ [f i] else a) acc =
        acc ++ (l.filter (fun i => decide (P i))).map f := by
  intro l
  induction l with
  | nil => intro acc; simp
  | cons x xs ih =>
    intro acc
    by_cases hx : P x <;> simp [List.foldl_cons, hx, ih, List.filter_cons]

theorem pairRow_ok (beta : ℚ) (jv : ℕ → ℕ → ℚ) (i : ℕ) :
    ∀ (cols : List ℕ) (acc : List TableQ),
      (∀ j ∈ cols, jv i j ≠ 0 → i ≠ j) →
      Ising.pairRow beta jv i cols acc =
        Except.ok (acc ++ (cols.filter (fun j => decide (jv i j ≠ 0))).map
          (fun j => Ising.pairTable beta (jv i j) i j)) := by
  intro cols
  induction cols with
  | nil => intro acc _; simp [Ising.pairRow]
  | cons j js ih =>
    intro acc hcond
    by_cases hz : jv i j ≠ 0
    · have hne : i ≠ j := hcond j (by simp) hz
      rw [Ising.pairRow, if_pos hz, if_neg hne,
        ih (acc ++ [Ising.pairTable beta (jv i j) i j])
          (fun j2 hj2 => hcond j2 (by simp [hj2]))]
      simp [List.filter_cons, hz]
    · rw [Ising.pairRow, if_neg hz, ih acc (fun j2 hj2 => hcond j2 (by simp [hj2]))]
      simp [List.filter_cons, hz]

theorem pairRow_err (beta : ℚ) (jv : ℕ → ℕ → ℚ) (i : ℕ) :
    ∀ (cols : List ℕ) (acc : List TableQ),
      (∃ j ∈ cols, jv i j ≠ 0 ∧ i = j) →
      Ising.pairRow beta jv i cols acc = Except.error OrangError.invalidArgument := by
  intro cols
  induction cols with
  | nil => intro acc hex; simp at hex
  | cons j js ih =>
    intro acc hex
    by_cases hz : jv i j ≠ 0
    · by_cases hij : i = j
      · rw [Ising.pairRow, if_pos hz, if_pos hij]
      · rw [Ising.pairRow, if_pos hz, if_neg hij]
        refine ih (acc ++ [Ising.pairTable beta (jv i j) i j]) ?_
        rcases hex with ⟨j2, hj2, hprop⟩
        rcases List.mem_cons.mp hj2 with rfl | hmem
        · exact absurd hprop.2 hij
        · exact ⟨j2, hmem, hprop⟩
    · rw [Ising.pairRow, if_neg hz]
      refine ih acc ?_
      rcases hex with ⟨j2, hj2, hprop⟩
      rcases List.mem_cons.mp hj2 with rfl | hmem
      · exact absurd hprop.1 hz
      · exact ⟨j2, hmem, hprop⟩

theorem pairRows_ok (beta : ℚ) (jv : ℕ → ℕ → ℚ) (jCols : ℕ) :
    ∀ (rows : List ℕ) (acc : List TableQ),
      (∀ i ∈ rows, ∀ j, j < jCols → jv i j ≠ 0 → i ≠ j) →
      Ising.pairRows beta jv jCols rows acc =
        Except.ok (acc ++
          ((rows.flatMap (fun i => (List.range jCols).map (fun j => (i, j)))).filter
            (fun p => decide (jv p.1 p.2 ≠ 0))).map
            (fun p => Ising.pairTable beta (jv p.1 p.2) p.1 p.2)) := by
  intro rows
  induction rows with
  | nil => intro acc _; simp [Ising.pairRows]
  | cons i is ih =>
    intro acc hcond
    have hrow := pairRow_ok beta jv i (List.range jCols) acc
      (fun j hj => hcond i (by simp) j (List.mem_range.mp hj))
    rw [Ising.pairRows, hrow]
    show Ising.pairRows beta jv jCols is _ = _
    rw [ih (acc ++ (((List.range jCols).filter (fun j => decide (jv i j ≠ 0))).map
          (fun j => Ising.pairTable beta (jv i j) i j)))
        (fun i2 hi2 => hcond i2 (by simp [hi2]))]
    congr 1
    rw [List.flatMap_cons, List.filter_append, List.map_append, List.append_assoc]
    congr 2
    rw [List.filter_map, List.map_map]
    rfl

theorem pairRows_err (beta : ℚ) (jv : ℕ → ℕ → ℚ) (jCols : ℕ) :
    ∀ (rows : List ℕ) (acc : List TableQ),
      (∃ i ∈ rows, ∃ j, j < jCols ∧ jv i j ≠ 0 ∧ i = j) →
      Ising.pairRows beta jv jCols rows acc = Except.error OrangError.invalidArgument := by
  intro rows
  induction rows with
  | nil => intro acc hex; simp at hex
  | cons i is ih =>
    intro acc hex
    by_cases hi : ∃ j ∈ List.range jCols, jv i j ≠ 0 ∧ i = j
    · rw [Ising.pairRows, pairRow_err beta jv i (List.range jCols) acc hi]
    · have hcondi : ∀ j ∈ List.range jCols, jv i j ≠ 0 → i ≠ j := by
        intro j hj hz hij
        exact hi ⟨j, hj, hz, hij⟩
      have hrow := pairRow_ok beta jv i (List.range jCols) acc hcondi
      have hex2 : ∃ i2 ∈ is, ∃ j, j < jCols ∧ jv i2 j ≠ 0 ∧ i2 = j := by
        rcases hex with ⟨i2, hi2, j, hj, hz, hij⟩
        rcases List.mem_cons.mp hi2 with rfl | hmem
        · exact absurd ⟨j, List.mem_range.mpr hj, hz, hij⟩ hi
        · exact ⟨i2, hmem, j, hj, hz, hij⟩
      rw [Ising.pairRows, hrow]
      show Ising.pairRows beta jv jCols is _ = _
      exact ih _ hex2

/-- C6: for every field vector h, coupler matrix J with zero diagonal
wherever nonzero entries occur, and inverse temperature beta, the Ising
adapter emits exactly one unary table per nonzero h entry, over variable i
with domain size 2 and values (βh, −βh), and exactly one pairwise table per
nonzero off-diagonal J entry, over the ascending scope with values
(−βJ, βJ, βJ, −βJ); a nonzero diagonal J entry is rejected as invalid
(conversions.cpp, isingTables). -/
theorem isingTables_claim (hLen : ℕ) (hv : ℕ → ℚ) (jRows jCols : ℕ)
    (jv : ℕ → ℕ → ℚ) (beta : ℚ) :
    ((∀ i, i < jRows → i < jCols → jv i i = 0) →
      Ising.isingTables hLen hv jRows jCols jv beta =
        Except.ok (Ising.unarySpec hLen hv beta ++ Ising.pairSpec jRows jCols jv beta)) ∧
    ((∃ d, d < jRows ∧ d < jCols ∧ jv d d ≠ 0) →
      Ising.isingTables hLen hv jRows jCols jv beta =
        Except.error OrangError.invalidArgument) := by
  constructor
  · intro hdiag
    have hp := pairRows_ok beta jv jCols (List.range jRows) []
      (by
        intro i hi j hj hz hij
        subst hij
        exact hz (hdiag i (List.mem_range.mp hi) hj))
    have hu := foldl_if_append (fun i => hv i ≠ 0) (fun i => Ising.unaryTable beta (hv i) i)
      (List.range hLen) []
    rw [Ising.isingTables, hu, hp]
    rfl
  · intro hdiag
    rcases hdiag with ⟨d, hdr, hdc, hdz⟩
    have hp := pairRows_err beta jv jCols (List.range jRows) []
      ⟨d, List.mem_range.mpr hdr, d, hdc, hdz, rfl⟩
    have hu := foldl_if_append (fun i => hv i ≠ 0) (fun i => Ising.unaryTable beta (hv i) i)
      (List.range hLen) []
    rw [Ising.isingTables, hu, hp]

theorem isingTables_claim_witness :
    Ising.isingTables 1 (fun _ => 3) 1 1 (fun _ _ => 0) 2 =
        Except.ok (Ising.unarySpec 1 (fun _ => 3) 2 ++ Ising.pairSpec 1 1 (fun _ _ => 0) 2) ∧
      Ising.isingTables 0 (fun _ => 0) 1 1 (fun _ _ => 5) 1 =
        Except.error OrangError.invalidArgument :=
  ⟨(isingTables_claim 1 (fun _ => 3) 1 1 (fun _ _ => 0) 2).1 (by intro i _ _; rfl),
    (isingTables_claim 0 (fun _ => 0) 1 1 (fun _ _ => 5) 1).2
      ⟨0, by decide, by decide, by norm_num⟩⟩

/-! ## C2 — the optimize result -/

theorem lexLeB_total : ∀ x y : List ℕ, lexLeB x y = true ∨ lexLeB y x = true := by
  intro x
  induction x with
  | nil => intro y; left; rfl
  | cons a as ih =>
    intro y
    cases y with
    | nil => right; rfl
    | cons b bs =>
      rcases lt_trichotomy a b with hab | hab | hab
      · left; simp [lexLeB, hab]
      · subst hab
        rcases ih bs with h | h
        · left; simp [lexLeB, h]
        · right; simp [lexLeB, h]
      · right; simp [lexLeB, hab]

theorem lexLeB_trans :
    ∀ x y z : List ℕ, lexLeB x y = true → lexLeB y z = true → lexLeB x z = true := by
  intro x
  induction x with
  | nil => intro y z _ _; rfl
  | cons a as ih =>
    intro y z hxy hyz
    cases y with
    | nil => simp [lexLeB] at hxy
    | cons b bs =>
      cases z with
      | nil => simp [lexLeB] at hyz
      | cons c cs =>
        simp only [lexLeB, Bool.or_eq_true, Bool.and_eq_true, decide_eq_true_eq] at hxy hyz ⊢
        rcases hxy with h1 | ⟨h1, h1r⟩
        · rcases hyz with h2 | ⟨h2, _⟩
          · exact Or.inl (h1.trans h2)
          · exact Or.inl (h2 ▸ h1)
        · rcases hyz with h2 | ⟨h2, h2r⟩
          · exact Or.inl (h1 ▸ h2)
          · exact Or.inr ⟨h1.trans h2, ih bs cs h1r h2r⟩

theorem solRel_total (tables : List TableQ) :
    ∀ x y, solRel tables x y ∨ solRel tables y x := by
  intro x y
  rcases lt_trichotomy (energyQ tables x) (energyQ tables y) with h | h | h
  · exact Or.inl (Or.inl h)
  · rcases lexLeB_total x y with hl | hl
    · exact Or.inl (Or.inr ⟨h, hl⟩)
    · exact Or.inr (Or.inr ⟨h.symm, hl⟩)
  · exact Or.inr (Or.inl h)

theorem solRel_trans (tables : List TableQ) :
    ∀ x y z, solRel tables x y → solRel tables y z → solRel tables x z := by
  intro x y z hxy hyz
  rcases hxy with h1 | ⟨h1, h1l⟩ <;> rcases hyz with h2 | ⟨h2, h2l⟩
  · exact Or.inl (h1.trans h2)
  · exact Or.inl (h2 ▸ h1)
  · exact Or.inl (h1 ▸ h2)
  · exact Or.inr ⟨h1.trans h2, lexLeB_trans x y z h1l h2l⟩

theorem solRel_energy_le (tables : List TableQ) (x y : List ℕ)
    (h : solRel tables x y) : energyQ tables x ≤ energyQ tables y := by
  rcases h with h | ⟨h, _⟩
  · exact le_of_lt h
  · exact le_of_eq h

theorem allAssignments_length :
    ∀ doms : List ℕ, (allAssignments doms).length = doms.prod := by
  intro doms
  induction doms with
  | nil => rfl
  | cons d rest ih =>
    rw [allAssignments, List.length_flatMap, List.prod_cons, ← ih]
    have hmap : (List.range d).map
          (List.length ∘ fun a => (allAssignments rest).map (fun x => a :: x)) =
        (List.range d).map (fun _ => (allAssignments rest).length) := by
      apply List.map_congr_left
      intro a _
      simp
    rw [hmap, List.map_const', List.sum_replicate, List.length_range, smul_eq_mul]

theorem allAssignments_ne_nil (doms : List ℕ) (hd : ∀ d ∈ doms, 1 ≤ d) :
    allAssignments doms ≠ [] := by
  have hlen : (allAssignments doms).length = doms.prod := allAssignments_length doms
  have hpos : 0 < doms.prod := List.prod_pos (fun d hmem => hd d hmem)
  intro hnil
  rw [hnil] at hlen
  simp at hlen
  omega

theorem foldr_min_le_self (l : List ℚ) (a : ℚ) : l.foldr min a ≤ a := by
  induction l with
  | nil => simp
  | cons x xs ih =>
    calc min x (xs.foldr min a) ≤ xs.foldr min a := min_le_right _ _
    _ ≤ a := ih

theorem foldr_min_le_mem (l : List ℚ) (a : ℚ) : ∀ x ∈ l, l.foldr min a ≤ x := by
  induction l with
  | nil => intro x hx; simp at hx
  | cons y ys ih =>
    intro x hx
    rcases List.mem_cons.mp hx with rfl | hmem
    · exact min_le_left _ _
    · calc min y (ys.foldr min a) ≤ ys.foldr min a := min_le_right _ _
      _ ≤ x := ih x hmem

theorem foldr_min_mem (l : List ℚ) (a : ℚ) : l.foldr min a = a ∨ l.foldr min a ∈ l := by
  induction l with
  | nil => left; rfl
  | cons y ys ih =>
    rcases min_choice y (ys.foldr min a) with h | h
    · right; rw [List.foldr_cons, h]; exact List.mem_cons_self y ys
    · rw [List.foldr_cons, h]
      rcases ih with h2 | h2
      · left; exact h2
      · right; exact List.mem_cons_of_mem y h2

theorem optScalar_le (tables : List TableQ) (doms : List ℕ) (x : List ℕ)
    (hx : x ∈ allAssignments doms) : optScalar tables doms ≤ energyQ tables x := by
  have hmem : energyQ tables x ∈ (allAssignments doms).map (energyQ tables) :=
    List.mem_map_of_mem _ hx
  exact foldr_min_le_mem _ _ _ hmem

theorem optScalar_attained (tables : List TableQ) (doms : List ℕ)
    (hne : allAssignments doms ≠ []) :
    ∃ x ∈ allAssignments doms, optScalar tables doms = energyQ tables x := by
  have hmapne : (allAssignments doms).map (energyQ tables) ≠ [] := by
    intro h0
    exact hne (List.map_eq_nil_iff.mp h0)
  have hmem : optScalar tables doms ∈ (allAssignments doms).map (energyQ tables) := by
    rcases foldr_min_mem ((allAssignments doms).map (energyQ tables))
        (((allAssignments doms).map (energyQ tables)).headI) with h | h
    · rw [optScalar, h]
      rcases hl : (allAssignments doms).map (energyQ tables) with _ | ⟨e, es⟩
      · exact absurd hl hmapne
      · simp
    · rw [optScalar]
      exact h
  rcases List.mem_map.mp hmem with ⟨x, hx, hxe⟩
  exact ⟨x, hx, hxe.symm⟩

theorem headI_take {α : Type} [Inhabited α] (l : List α) (k : ℕ) (hk : 1 ≤ k) :
    (l.take k).headI = l.headI := by
  cases l with
  | nil => simp
  | cons a as =>
    cases k with
    | zero => omega
    | succ k2 => rfl

/-- C2 (amended): for every factor-table input, optimize with
maxSolutions = k returns the min(k, total) smallest assignments under the
(energy, then lexicographic) order — every returned solution precedes every
non-returned assignment in that order; the energies array is weakly
increasing; and energies[0] equals the scalar optimum returned by
maxSolutions = 0.  (The claim's "k lex-smallest minimizing assignments" is
amended to the top-k by increasing energy with lexicographic tie-breaking:
when k exceeds the number of minimizers the solver also returns
non-minimizing assignments, per the k-best semantics of MinSolutionSet.) -/
theorem optimize_topk (tables : List TableQ) (doms : List ℕ) (k : ℕ)
    (hdoms : ∀ d ∈ doms, 1 ≤ d) (hk : 1 ≤ k) :
    (optEnergies tables doms k).Sorted (· ≤ ·) ∧
    (optEnergies tables doms k).headI = optScalar tables doms ∧
    (optSolutions tables doms k).length = min k (allAssignments doms).length ∧
    (∀ x ∈ allAssignments doms, x ∉ optSolutions tables doms k →
      ∀ s ∈ optSolutions tables doms k, solRel tables s x) := by
  haveI : IsTotal (List ℕ) (solRel tables) := ⟨solRel_total tables⟩
  haveI : IsTrans (List ℕ) (solRel tables) := ⟨solRel_trans tables⟩
  have hsorted : (sortedAssignments tables doms).Sorted (solRel tables) :=
    List.sorted_insertionSort (solRel tables) (allAssignments doms)
  have hperm : List.Perm (sortedAssignments tables doms) (allAssignments doms) :=
    List.perm_insertionSort (solRel tables) (allAssignments doms)
  have hne : allAssignments doms ≠ [] := allAssignments_ne_nil doms hdoms
  have hnes : sortedAssignments tables doms ≠ [] := by
    intro h0
    have hp2 := hperm
    rw [h0] at hp2
    exact hne hp2.symm.eq_nil
  refine ⟨?_, ?_, ?_, ?_⟩
  · have htake : (optSolutions tables doms k).Sorted (solRel tables) :=
      List.Pairwise.sublist (List.take_sublist k _) hsorted
    rw [optEnergies]
    exact List.Pairwise.map _ (fun a b hab => solRel_energy_le tables a b hab) htake
  · rcases hs : sortedAssignments tables doms with _ | ⟨e, es⟩
    · exact absurd hs hnes
    · have hhead : (optSolutions tables doms k).headI = e := by
        rw [optSolutions, hs, headI_take _ k hk]
        rfl
      have hne2 : optSolutions tables doms k ≠ [] := by
        rw [optSolutions, hs]
        cases k with
        | zero => omega
        | succ k2 => simp
      have hmap : (optEnergies tables doms k).headI = energyQ tables e := by
        rw [optEnergies]
        rcases ho : optSolutions tables doms k with _ | ⟨s0, ss⟩
        · exact absurd ho hne2
        · have : s0 = e := by rw [ho] at hhead; exact hhead
          rw [this]
          rfl
      rw [hmap]
      have hsorted2 := hsorted
      rw [hs] at hsorted2
      have hees : ∀ y ∈ es, solRel tables e y := (List.sorted_cons.mp hsorted2).1
      have hemem : e ∈ allAssignments doms := by
        rw [← hperm.mem_iff, hs]
        exact List.mem_cons_self e es
      have hle : optScalar tables doms ≤ energyQ tables e := optScalar_le tables doms e hemem
      rcases optScalar_attained tables doms hne with ⟨x, hx, hxe⟩
      have hxsorted : x ∈ sortedAssignments tables doms := hperm.mem_iff.mpr hx
      rw [hs] at hxsorted
      rcases List.mem_cons.mp hxsorted with rfl | hmem
      · exact hxe.symm
      · have : energyQ tables e ≤ energyQ tables x :=
          solRel_energy_le tables e x (hees x hmem)
        rw [← hxe] at this
        exact le_antisymm this hle
  · rw [optSolutions, List.length_take, hperm.length_eq]
  · intro x hx hnotin s hs
    have hx2 : x ∈ sortedAssignments tables doms := hperm.mem_iff.mpr hx
    have hsplit : sortedAssignments tables doms =
        optSolutions tables doms k ++ (sortedAssignments tables doms).drop k := by
      rw [optSolutions, List.take_append_drop]
    have hx3 : x ∈ (sortedAssignments tables doms).drop k := by
      rw [hsplit] at hx2
      rcases List.mem_append.mp hx2 with h | h
      · exact absurd h hnotin
      · exact h
    have hpw := hsorted
    rw [hsplit] at hpw
    exact (List.pairwise_append.mp hpw).2.2 s hs x hx3

theorem optimize_topk_witness :
    (optEnergies [] [2] 1).Sorted (· ≤ ·) ∧
    (optEnergies [] [2] 1).headI = optScalar [] [2] ∧
    (optSolutions [] [2] 1).length = min 1 (allAssignments [2]).length ∧
    (∀ x ∈ allAssignments [2], x ∉ optSolutions [] [2] 1 →
      ∀ s ∈ optSolutions [] [2] 1, solRel [] s x) :=
  optimize_topk [] [2] 1 (by decide) (by decide)

/-- C2 counterexample: with the single unary table (0, 1) over one binary
variable and maxSolutions = 2, the solver returns both assignments [0] and
[1] (the top-2 by energy), whereas the 2 lex-smallest elements of the set of
minimizing assignments are just [[0]] — the claim's asserted solution set
differs from the returned one. -/
theorem optSolutions_not_argmins :
    optSolutions [⟨[0], [2], [0, 1]⟩] [2] 2 = [[0], [1]] ∧
    claimedSolutions [⟨[0], [2], [0, 1]⟩] [2] 2 = [[0]] ∧
    optSolutions [⟨[0], [2], [0, 1]⟩] [2] 2 ≠
      claimedSolutions [⟨[0], [2], [0, 1]⟩] [2] 2 := by
  have h1 : optSolutions [⟨[0], [2], [0, 1]⟩] [2] 2 = [[0], [1]] := by
    norm_num [optSolutions, sortedAssignments, allAssignments, List.insertionSort,
      List.orderedInsert, solRel, energyQ, tableVal, packedIndex, lexLeB]
  have ha : allAssignments [2] = [[0], [1]] := by decide
  have h0 : optScalar [⟨[0], [2], [0, 1]⟩] [2] = 0 := by
    rw [optScalar, ha]
    norm_num [energyQ, tableVal, packedIndex, min_def]
  have h2 : claimedSolutions [⟨[0], [2], [0, 1]⟩] [2] 2 = [[0]] := by
    rw [claimedSolutions, ha, h0]
    norm_num [List.insertionSort, List.orderedInsert, energyQ, tableVal, packedIndex,
      List.filter, lexLeB]
  refine ⟨h1, h2, ?_⟩
  rw [h1, h2]
  decide

/-! ## C10 and C1 — the greedy elimination order

Small facts about the selection machinery, then the invariants of one
elimination or clamp step, then the simulation against the spec-modelled
tree decomposition. -/

namespace Greedy

theorem selectVar_lt (baseRange totalRange : ℕ) (scale u : ℚ)
    (h : 1 ≤ totalRange) : selectVar baseRange totalRange scale u < totalRange := by
  rw [selectVar]
  have h1 : min (max ⌊min ((baseRange : ℚ) * scale) (totalRange : ℚ) * u⌋ 0)
      ((totalRange : ℤ) - 1) ≤ (totalRange : ℤ) - 1 := min_le_right _ _
  have h2 := Int.toNat_le_toNat h1
  have h3 : ((totalRange : ℤ) - 1).toNat = totalRange - 1 := by omega
  omega

theorem insertionSort_getD_mem (r : ℕ → ℕ → Prop) [DecidableRel r] (l : List ℕ)
    (i : ℕ) (h : i < l.length) : (l.insertionSort r).getD i 0 ∈ l := by
  have hlen : (l.insertionSort r).length = l.length :=
    (List.perm_insertionSort r l).length_eq
  have h2 : i < (l.insertionSort r).length := by omega
  rw [List.getD_eq_getElem _ _ h2]
  exact (List.perm_insertionSort r l).mem_iff.mp (List.getElem_mem h2)

theorem mem_eligList {n : ℕ} {budget : ℚ} {st : GState} {v : ℕ}
    (h : v ∈ eligList n budget st) :
    v < n ∧ (st.vars v).processed = false ∧ ((st.vars v).cplx : ℚ) ≤ budget := by
  simp only [eligList, List.mem_filter, List.mem_range, Bool.and_eq_true,
    Bool.not_eq_true', decide_eq_true_eq] at h
  exact ⟨h.1, h.2.1, h.2.2⟩

theorem mem_unprocList {n : ℕ} {st : GState} {v : ℕ}
    (h : v ∈ unprocList n st) : v < n ∧ (st.vars v).processed = false := by
  simp only [unprocList, List.mem_filter, List.mem_range, Bool.not_eq_true'] at h
  exact h

theorem elimPick_mem (budget scale : ℚ) (n : ℕ) (u : ℚ) (st : GState)
    (hne : eligList n budget st ≠ []) :
    elimPick budget scale n u st ∈ eligList n budget st := by
  have hlen : 1 ≤ (eligList n budget st).length := List.length_pos.mpr hne
  exact insertionSort_getD_mem (costRel st) (eligList n budget st) _
    (Nat.lt_of_lt_of_le (selectVar_lt _ _ scale u hlen) (le_refl _))

theorem clampPick_mem (scale : ℚ) (n : ℕ) (u : ℚ) (st : GState)
    (hne : unprocList n st ≠ []) :
    clampPick scale n u st ∈ unprocList n st := by
  have hlen0 : 1 ≤ (unprocList n st).length := List.length_pos.mpr hne
  have hsortlen : (unprocList n st).length =
      ((unprocList n st).insertionSort (clampRel st)).length :=
    ((List.perm_insertionSort (clampRel st) (unprocList n st)).length_eq).symm
  have hhead : ((unprocList n st).insertionSort (clampRel st)).headI ∈ unprocList n st := by
    rcases hs : (unprocList n st).insertionSort (clampRel st) with _ | ⟨e, es⟩
    · rw [hs] at hsortlen
      simp at hsortlen
      exact absurd hsortlen hne
    · have he : e ∈ (unprocList n st).insertionSort (clampRel st) := by
        rw [hs]; exact List.mem_cons_self e es
      have := (List.perm_insertionSort (clampRel st) (unprocList n st)).mem_iff.mp he
      simpa using this
  set v0 := ((unprocList n st).insertionSort (clampRel st)).headI with hv0
  have htot : 1 ≤ ((unprocList n st).filter
      (fun w => decide ((st.vars w).clampRank = (st.vars v0).clampRank))).length := by
    apply List.length_pos.mpr
    intro h0
    have : v0 ∈ (unprocList n st).filter
        (fun w => decide ((st.vars w).clampRank = (st.vars v0).clampRank)) := by
      apply List.mem_filter.mpr
      exact ⟨hhead, by simp⟩
    rw [h0] at this
    simp at this
  have hfle : ((unprocList n st).filter
      (fun w => decide ((st.vars w).clampRank = (st.vars v0).clampRank))).length ≤
      (unprocList n st).length := List.length_filter_le _ _
  exact insertionSort_getD_mem (clampRel st) (unprocList n st) _
    (Nat.lt_of_lt_of_le (selectVar_lt _ _ scale u htot) hfle)

theorem updateCosts_vars (h : Heuristic) (st : GState) (s : Finset ℕ) (u : ℕ) :
    ((updateCosts h st s).vars u).domSize = (st.vars u).domSize ∧
    ((updateCosts h st s).vars u).processed = (st.vars u).processed ∧
    ((updateCosts h st s).vars u).adj = (st.vars u).adj ∧
    ((updateCosts h st s).vars u).clampRank = (st.vars u).clampRank := by
  rw [updateCosts]
  dsimp only
  split
  · exact ⟨rfl, rfl, rfl, rfl⟩
  · exact ⟨rfl, rfl, rfl, rfl⟩

theorem updateCosts_cplx_mem (h : Heuristic) (st : GState) (s : Finset ℕ) (u : ℕ)
    (hu : u ∈ s) :
    ((updateCosts h st s).vars u).cplx =
      (st.vars u).domSize * (st.vars u).adj.prod (fun w => (st.vars w).domSize) := by
  rw [updateCosts]
  dsimp only
  rw [if_pos hu]
  rfl

theorem updateCosts_cplx_not_mem (h : Heuristic) (st : GState) (s : Finset ℕ) (u : ℕ)
    (hu : u ∉ s) : ((updateCosts h st s).vars u).cplx = (st.vars u).cplx := by
  rw [updateCosts]
  dsimp only
  rw [if_neg hu]

theorem elimAdjUpdate_vars (st : GState) (v u : ℕ) :
    ((elimAdjUpdate st v).vars u).domSize = (st.vars u).domSize ∧
    ((elimAdjUpdate st v).vars u).processed =
      (if u = v then true else (st.vars u).processed) ∧
    ((elimAdjUpdate st v).vars u).adj =
      (if u = v then (st.vars v).adj
       else if u ∈ (st.vars v).adj then (((st.vars u).adj ∪ (st.vars v).adj).erase u).erase v
       else (st.vars u).adj) ∧
    ((elimAdjUpdate st v).vars u).cplx = (st.vars u).cplx := by
  by_cases h1 : u = v
  · subst h1
    simp [elimAdjUpdate]
  · by_cases h2 : u ∈ (st.vars v).adj <;> simp [elimAdjUpdate, h1, h2]

theorem clampAdjUpdate_vars (st : GState) (v u : ℕ) :
    ((clampAdjUpdate st v).vars u).domSize = (st.vars u).domSize ∧
    ((clampAdjUpdate st v).vars u).processed =
      (if u = v then true else (st.vars u).processed) ∧
    ((clampAdjUpdate st v).vars u).adj =
      (if u = v then (st.vars v).adj
       else if u ∈ (st.vars v).adj then (st.vars u).adj.erase v
       else (st.vars u).adj) ∧
    ((clampAdjUpdate st v).vars u).cplx = (st.vars u).cplx := by
  by_cases h1 : u = v
  · subst h1
    simp [clampAdjUpdate]
  · by_cases h2 : u ∈ (st.vars v).adj <;> simp [clampAdjUpdate, h1, h2]

theorem decPhase_vars (lcr : ℤ) (st : GState) (u : ℕ) :
    ((decPhase lcr st).vars u).domSize = (st.vars u).domSize ∧
    ((decPhase lcr st).vars u).processed = (st.vars u).processed ∧
    ((decPhase lcr st).vars u).adj = (st.vars u).adj ∧
    ((decPhase lcr st).vars u).cplx = (st.vars u).cplx := by
  rw [decPhase]
  split
  · dsimp only
    split
    · exact ⟨rfl, rfl, rfl, rfl⟩
    · exact ⟨rfl, rfl, rfl, rfl⟩
  · exact ⟨rfl, rfl, rfl, rfl⟩

theorem adj_subset_affected (h : Heuristic) (st : GState) (v : ℕ) (hirr : AdjIrr st) :
    (st.vars v).adj ⊆ affectedVars h st v := by
  intro x hx
  cases h with
  | minDegree => exact hx
  | weightedMinDegree => exact hx
  | minFill =>
    apply Finset.mem_erase.mpr
    refine ⟨?_, Finset.mem_union_left _ hx⟩
    intro hxv
    rw [hxv] at hx
    exact hirr v hx
  | weightedMinFill =>
    apply Finset.mem_erase.mpr
    refine ⟨?_, Finset.mem_union_left _ hx⟩
    intro hxv
    rw [hxv] at hx
    exact hirr v hx

theorem elimApply_vars (h : Heuristic) (st : GState) (v u : ℕ) :
    ((elimApply h st v).vars u).domSize = (st.vars u).domSize ∧
    ((elimApply h st v).vars u).processed =
      (if u = v then true else (st.vars u).processed) ∧
    ((elimApply h st v).vars u).adj =
      (if u = v then (st.vars v).adj
       else if u ∈ (st.vars v).adj then (((st.vars u).adj ∪ (st.vars v).adj).erase u).erase v
       else (st.vars u).adj) := by
  have h1 := updateCosts_vars h (elimAdjUpdate st v) (affectedVars h st v) u
  have h2 := elimAdjUpdate_vars st v u
  rw [elimApply]
  exact ⟨h1.1.trans h2.1, h1.2.1.trans h2.2.1, h1.2.2.1.trans h2.2.2.1⟩

theorem clampApply_vars (h : Heuristic) (st : GState) (v u : ℕ) :
    ((clampApply h st v).vars u).domSize = (st.vars u).domSize ∧
    ((clampApply h st v).vars u).processed =
      (if u = v then true else (st.vars u).processed) ∧
    ((clampApply h st v).vars u).adj =
      (if u = v then (st.vars v).adj
       else if u ∈ (st.vars v).adj then (st.vars u).adj.erase v
       else (st.vars u).adj) := by
  have h1 := updateCosts_vars h (clampAdjUpdate st v) (st.vars v).adj u
  have h2 := clampAdjUpdate_vars st v u
  rw [clampApply]
  exact ⟨h1.1.trans h2.1, h1.2.1.trans h2.2.1, h1.2.2.1.trans h2.2.2.1⟩

theorem elimApply_domFixed (h : Heuristic) (st : GState) (v : ℕ) (ds : ℕ → ℕ)
    (hd : DomFixed ds st) : DomFixed ds (elimApply h st v) := by
  intro u
  rw [(elimApply_vars h st v u).1]
  exact hd u

theorem clampApply_domFixed (h : Heuristic) (st : GState) (v : ℕ) (ds : ℕ → ℕ)
    (hd : DomFixed ds st) : DomFixed ds (clampApply h st v) := by
  intro u
  rw [(clampApply_vars h st v u).1]
  exact hd u

theorem decPhase_domFixed (lcr : ℤ) (st : GState) (ds : ℕ → ℕ)
    (hd : DomFixed ds st) : DomFixed ds (decPhase lcr st) := by
  intro u
  rw [(decPhase_vars lcr st u).1]
  exact hd u

theorem elimApply_irr (h : Heuristic) (st : GState) (v : ℕ) (hirr : AdjIrr st) :
    AdjIrr (elimApply h st v) := by
  intro u
  have hadj := (elimApply_vars h st v u).2.2
  by_cases h1 : u = v
  · subst h1
    rw [hadj, if_pos rfl]
    exact hirr u
  · by_cases h2 : u ∈ (st.vars v).adj
    · rw [hadj, if_neg h1, if_pos h2]
      intro hmem
      exact (Finset.mem_erase.mp (Finset.mem_erase.mp hmem).2).1 rfl
    · rw [hadj, if_neg h1, if_neg h2]
      exact hirr u

theorem clampApply_irr (h : Heuristic) (st : GState) (v : ℕ) (hirr : AdjIrr st) :
    AdjIrr (clampApply h st v) := by
  intro u
  have hadj := (clampApply_vars h st v u).2.2
  by_cases h1 : u = v
  · subst h1
    rw [hadj, if_pos rfl]
    exact hirr u
  · by_cases h2 : u ∈ (st.vars v).adj
    · rw [hadj, if_neg h1, if_pos h2]
      intro hmem
      exact hirr u (Finset.mem_of_mem_erase hmem)
    · rw [hadj, if_neg h1, if_neg h2]
      exact hirr u

theorem decPhase_irr (lcr : ℤ) (st : GState) (hirr : AdjIrr st) :
    AdjIrr (decPhase lcr st) := by
  intro u
  rw [(decPhase_vars lcr st u).2.2.1]
  exact hirr u

theorem elimApply_cplxOK (h : Heuristic) (st : GState) (v : ℕ)
    (hirr : AdjIrr st) (hc : CplxOK st) : CplxOK (elimApply h st v) := by
  intro u hu
  unfold elimApply at hu ⊢
  by_cases hmem : u ∈ affectedVars h st v
  · rw [updateCosts_cplx_mem h (elimAdjUpdate st v) (affectedVars h st v) u hmem,
      (updateCosts_vars h (elimAdjUpdate st v) (affectedVars h st v) u).1,
      (updateCosts_vars h (elimAdjUpdate st v) (affectedVars h st v) u).2.2.1]
    exact congrArg (fun z => ((elimAdjUpdate st v).vars u).domSize * z)
      (Finset.prod_congr rfl
        (fun w _ =>
          ((updateCosts_vars h (elimAdjUpdate st v) (affectedVars h st v) w).1).symm))
  · have hproc1 : ((elimAdjUpdate st v).vars u).processed = false := by
      rw [← (updateCosts_vars h (elimAdjUpdate st v) (affectedVars h st v) u).2.1]
      exact hu
    have hne : u ≠ v := by
      intro h1
      rw [(elimAdjUpdate_vars st v u).2.1, if_pos h1] at hproc1
      simp at hproc1
    have hproc : (st.vars u).processed = false := by
      rw [(elimAdjUpdate_vars st v u).2.1, if_neg hne] at hproc1
      exact hproc1
    have hnadj : u ∉ (st.vars v).adj := fun h2 => hmem (adj_subset_affected h st v hirr h2)
    have hadj1 : ((elimAdjUpdate st v).vars u).adj = (st.vars u).adj := by
      rw [(elimAdjUpdate_vars st v u).2.2.1, if_neg hne, if_neg hnadj]
    rw [updateCosts_cplx_not_mem h (elimAdjUpdate st v) (affectedVars h st v) u hmem,
      (elimAdjUpdate_vars st v u).2.2.2,
      (updateCosts_vars h (elimAdjUpdate st v) (affectedVars h st v) u).1,
      (elimAdjUpdate_vars st v u).1,
      (updateCosts_vars h (elimAdjUpdate st v) (affectedVars h st v) u).2.2.1,
      hadj1, hc u hproc]
    exact congrArg (fun z => (st.vars u).domSize * z)
      (Finset.prod_congr rfl (fun w _ =>
        (((updateCosts_vars h (elimAdjUpdate st v) (affectedVars h st v) w).1.trans
          (elimAdjUpdate_vars st v w).1)).symm))

theorem clampApply_cplxOK (h : Heuristic) (st : GState) (v : ℕ)
    (hc : CplxOK st) : CplxOK (clampApply h st v) := by
  intro u hu
  unfold clampApply at hu ⊢
  by_cases hmem : u ∈ (st.vars v).adj
  · rw [updateCosts_cplx_mem h (clampAdjUpdate st v) (st.vars v).adj u hmem,
      (updateCosts_vars h (clampAdjUpdate st v) (st.vars v).adj u).1,
      (updateCosts_vars h (clampAdjUpdate st v) (st.vars v).adj u).2.2.1]
    exact congrArg (fun z => ((clampAdjUpdate st v).vars u).domSize * z)
      (Finset.prod_congr rfl
        (fun w _ => ((updateCosts_vars h (clampAdjUpdate st v) (st.vars v).adj w).1).symm))
  · have hproc1 : ((clampAdjUpdate st v).vars u).processed = false := by
      rw [← (updateCosts_vars h (clampAdjUpdate st v) (st.vars v).adj u).2.1]
      exact hu
    have hne : u ≠ v := by
      intro h1
      rw [(clampAdjUpdate_vars st v u).2.1, if_pos h1] at hproc1
      simp at hproc1
    have hproc : (st.vars u).processed = false := by
      rw [(clampAdjUpdate_vars st v u).2.1, if_neg hne] at hproc1
      exact hproc1
    have hadj1 : ((clampAdjUpdate st v).vars u).adj = (st.vars u).adj := by
      rw [(clampAdjUpdate_vars st v u).2.2.1, if_neg hne, if_neg hmem]
    rw [updateCosts_cplx_not_mem h (clampAdjUpdate st v) (st.vars v).adj u hmem,
      (clampAdjUpdate_vars st v u).2.2.2,
      (updateCosts_vars h (clampAdjUpdate st v) (st.vars v).adj u).1,
      (clampAdjUpdate_vars st v u).1,
      (updateCosts_vars h (clampAdjUpdate st v) (st.vars v).adj u).2.2.1,
      hadj1, hc u hproc]
    exact congrArg (fun z => (st.vars u).domSize * z)
      (Finset.prod_congr rfl (fun w _ =>
        (((updateCosts_vars h (clampAdjUpdate st v) (st.vars v).adj w).1.trans
          (clampAdjUpdate_vars st v w).1)).symm))

theorem decPhase_cplxOK (lcr : ℤ) (st : GState) (hc : CplxOK st) :
    CplxOK (decPhase lcr st) := by
  intro v hv
  have hdv := decPhase_vars lcr st v
  have hproc : (st.vars v).processed = false := by rw [← hdv.2.1]; exact hv
  rw [hdv.2.2.2, hdv.1, hdv.2.2.1, hc v hproc]
  exact congrArg (fun z => (st.vars v).domSize * z)
    (Finset.prod_congr rfl (fun w _ => ((decPhase_vars lcr st w).1).symm))

theorem elimApply_wdom (h : Heuristic) (st : GState) (v : ℕ) (W : ℕ → Finset ℕ)
    (hirr : AdjIrr st) (hw : WDom st W) :
    WDom (elimApply h st v) (Decomp.elimGraphStep W v) := by
  intro u w hmem
  by_cases h1 : u = v
  · simp [Decomp.elimGraphStep, h1] at hmem
  · have hadj := (elimApply_vars h st v u).2.2
    by_cases h2 : u ∈ W v
    · simp only [Decomp.elimGraphStep, if_neg h1, if_pos h2, Finset.mem_erase] at hmem
      obtain ⟨hwv, hwu, hmem2⟩ := hmem
      have huadj : u ∈ (st.vars v).adj := hw v u h2
      rw [hadj, if_neg h1, if_pos huadj]
      apply Finset.mem_erase.mpr
      refine ⟨hwv, Finset.mem_erase.mpr ⟨hwu, ?_⟩⟩
      rcases Finset.mem_union.mp hmem2 with hcase | hcase
      · exact Finset.mem_union_left _ (hw u w hcase)
      · exact Finset.mem_union_right _ (hw v w hcase)
    · simp only [Decomp.elimGraphStep, if_neg h1, if_neg h2, Finset.mem_erase] at hmem
      obtain ⟨hwv, hmem2⟩ := hmem
      by_cases h3 : u ∈ (st.vars v).adj
      · rw [hadj, if_neg h1, if_pos h3]
        apply Finset.mem_erase.mpr
        refine ⟨hwv, Finset.mem_erase.mpr ⟨?_, Finset.mem_union_left _ (hw u w hmem2)⟩⟩
        intro hwu
        subst hwu
        exact hirr w (hw w w hmem2)
      · rw [hadj, if_neg h1, if_neg h3]
        exact hw u w hmem2

theorem clampApply_wdom (h : Heuristic) (st : GState) (v : ℕ) (W : ℕ → Finset ℕ)
    (hw : WDom st W) (hnv : ∀ u w, w ∈ W u → w ≠ v) :
    WDom (clampApply h st v) W := by
  intro u w hmem
  have hadj := (clampApply_vars h st v u).2.2
  by_cases h1 : u = v
  · subst h1
    rw [hadj, if_pos rfl]
    exact hw u w hmem
  · by_cases h2 : u ∈ (st.vars v).adj
    · rw [hadj, if_neg h1, if_pos h2]
      exact Finset.mem_erase.mpr ⟨hnv u w hmem, hw u w hmem⟩
    · rw [hadj, if_neg h1, if_neg h2]
      exact hw u w hmem

theorem decPhase_wdom (lcr : ℤ) (st : GState) (W : ℕ → Finset ℕ) (hw : WDom st W) :
    WDom (decPhase lcr st) W := by
  intro u w hmem
  rw [(decPhase_vars lcr st u).2.2.1]
  exact hw u w hmem

theorem elimApply_processed_mono (h : Heuristic) (st : GState) (v u : ℕ)
    (hp : (st.vars u).processed = true) :
    ((elimApply h st v).vars u).processed = true := by
  rw [(elimApply_vars h st v u).2.1]
  split
  · rfl
  · exact hp

theorem clampApply_processed_mono (h : Heuristic) (st : GState) (v u : ℕ)
    (hp : (st.vars u).processed = true) :
    ((clampApply h st v).vars u).processed = true := by
  rw [(clampApply_vars h st v u).2.1]
  split
  · rfl
  · exact hp

theorem clampApply_processed_self (h : Heuristic) (st : GState) (v : ℕ) :
    ((clampApply h st v).vars v).processed = true := by
  rw [(clampApply_vars h st v v).2.1, if_pos rfl]

theorem greedyLoop_succ_empty (h : Heuristic) (budget scale : ℚ) (rng : ℕ → ℚ)
    (n fuel : ℕ) (st : GState) (lcr : ℤ) (k : ℕ)
    (hemp : (unprocList n st).isEmpty = true) :
    greedyLoop h budget scale rng n (fuel + 1) st lcr k = [] := by
  simp [greedyLoop, hemp]

theorem greedyLoop_succ_elim (h : Heuristic) (budget scale : ℚ) (rng : ℕ → ℚ)
    (n fuel : ℕ) (st : GState) (lcr : ℤ) (k : ℕ)
    (hemp : (unprocList n st).isEmpty = false)
    (helig : (eligList n budget st).isEmpty = false) :
    greedyLoop h budget scale rng n (fuel + 1) st lcr k =
      elimPick budget scale n (rng k) st ::
        greedyLoop h budget scale rng n fuel
          (elimApply h st (elimPick budget scale n (rng k) st)) lcr (k + 1) := by
  simp [greedyLoop, greedyStep, elimBranch, hemp, helig]

theorem greedyLoop_succ_clamp (h : Heuristic) (budget scale : ℚ) (rng : ℕ → ℚ)
    (n fuel : ℕ) (st : GState) (lcr : ℤ) (k : ℕ)
    (hemp : (unprocList n st).isEmpty = false)
    (helig : (eligList n budget st).isEmpty = true) :
    greedyLoop h budget scale rng n (fuel + 1) st lcr k =
      greedyLoop h budget scale rng n fuel
        (clampApply h (decPhase lcr st) (clampPick scale n (rng k) (decPhase lcr st)))
        (((decPhase lcr st).vars (clampPick scale n (rng k) (decPhase lcr st))).clampRank)
        (k + 1) := by
  simp [greedyLoop, greedyStep, clampBranch, hemp, helig]

theorem mem_greedyLoop (h : Heuristic) (budget scale : ℚ) (rng : ℕ → ℚ) (n : ℕ) :
    ∀ (fuel : ℕ) (st : GState) (lcr : ℤ) (k : ℕ) (v : ℕ),
      v ∈ greedyLoop h budget scale rng n fuel st lcr k →
      v < n ∧ (st.vars v).processed = false := by
  intro fuel
  induction fuel with
  | zero => intro st lcr k v hv; simp [greedyLoop] at hv
  | succ fuel ih =>
    intro st lcr k v hv
    by_cases hemp : (unprocList n st).isEmpty
    · rw [greedyLoop_succ_empty h budget scale rng n fuel st lcr k hemp] at hv
      simp at hv
    · rw [Bool.not_eq_true] at hemp
      by_cases helig : (eligList n budget st).isEmpty
      · rw [greedyLoop_succ_clamp h budget scale rng n fuel st lcr k hemp helig] at hv
        have hrec := ih _ _ _ v hv
        refine ⟨hrec.1, ?_⟩
        cases hb : (st.vars v).processed with
        | false => rfl
        | true =>
          exfalso
          have h2 : ((decPhase lcr st).vars v).processed = true := by
            rw [(decPhase_vars lcr st v).2.1]
            exact hb
          have h3 := clampApply_processed_mono h (decPhase lcr st)
            (clampPick scale n (rng k) (decPhase lcr st)) v h2
          exact Bool.noConfusion (h3.symm.trans hrec.2)
      · rw [Bool.not_eq_true] at helig
        rw [greedyLoop_succ_elim h budget scale rng n fuel st lcr k hemp helig] at hv
        have hne : eligList n budget st ≠ [] := by
          intro h0
          rw [h0] at helig
          simp at helig
        rcases List.mem_cons.mp hv with rfl | hv2
        · have := mem_eligList (elimPick_mem budget scale n (rng k) st hne)
          exact ⟨this.1, this.2.1⟩
        · have hrec := ih _ _ _ v hv2
          refine ⟨hrec.1, ?_⟩
          cases hb : (st.vars v).processed with
          | false => rfl
          | true =>
            exfalso
            have h3 := elimApply_processed_mono h st
              (elimPick budget scale n (rng k) st) v hb
            exact Bool.noConfusion (h3.symm.trans hrec.2)



theorem initGState_domFixed (h : Heuristic) (inp : GreedyInput) :
    DomFixed inp.ds (initGState h inp) := fun _ => rfl

theorem initGState_cplxOK (h : Heuristic) (inp : GreedyInput) :
    CplxOK (initGState h inp) := fun _ _ => rfl

theorem initGState_irr (h : Heuristic) (inp : GreedyInput)
    (hirr : ∀ v, v ∉ inp.adj0 v) : AdjIrr (initGState h inp) := by
  intro v hmem
  have h2 : v ∈ (inp.adj0 v).filter (fun w => 0 ≤ inp.rank w) := hmem
  exact hirr v (Finset.mem_filter.mp h2).1

theorem initGState_processed (h : Heuristic) (inp : GreedyInput) (v : ℕ) :
    ((initGState h inp).vars v).processed = decide (inp.rank v < 0) := rfl

theorem initGState_adj (h : Heuristic) (inp : GreedyInput) (v : ℕ) :
    ((initGState h inp).vars v).adj =
      (inp.adj0 v).filter (fun w => 0 ≤ inp.rank w) := rfl

theorem mem_initW (adj0 : ℕ → Finset ℕ) (ord : List ℕ) (u w : ℕ)
    (hmem : w ∈ Decomp.initW adj0 ord u) : u ∈ ord ∧ w ∈ adj0 u ∧ w ∈ ord := by
  simp only [Decomp.initW] at hmem
  by_cases h : u ∈ ord
  · rw [if_pos h] at hmem
    have h2 := Finset.mem_filter.mp hmem
    refine ⟨h, h2.1, ?_⟩
    have := h2.2
    simpa using this
  · rw [if_neg h] at hmem
    simp at hmem

theorem decompScopes_nil (W : ℕ → Finset ℕ) : Decomp.decompScopes W [] = [] := rfl

theorem decompScopes_cons (W : ℕ → Finset ℕ) (v : ℕ) (rest : List ℕ) :
    Decomp.decompScopes W (v :: rest) =
      insert v (W v) :: Decomp.decompScopes (Decomp.elimGraphStep W v) rest := rfl

theorem greedyLoop_decomp_bound (h : Heuristic) (budget scale : ℚ) (rng : ℕ → ℚ)
    (n : ℕ) (ds : ℕ → ℕ) (hds : ∀ v, 1 ≤ ds v) :
    ∀ (fuel : ℕ) (st : GState) (lcr : ℤ) (k : ℕ) (W : ℕ → Finset ℕ),
      DomFixed ds st → AdjIrr st → CplxOK st → WDom st W →
      (∀ u w, w ∈ W u → u ∈ greedyLoop h budget scale rng n fuel st lcr k ∧
        w ∈ greedyLoop h budget scale rng n fuel st lcr k) →
      ∀ s ∈ Decomp.decompScopes W (greedyLoop h budget scale rng n fuel st lcr k),
        ((s.prod ds : ℕ) : ℚ) ≤ budget := by
  intro fuel
  induction fuel with
  | zero =>
    intro st lcr k W _ _ _ _ _ s hs
    simp [greedyLoop, decompScopes_nil] at hs
  | succ fuel ih =>
    intro st lcr k W hdom hirr hcplx hw hfut s hs
    by_cases hemp : (unprocList n st).isEmpty
    · rw [greedyLoop_succ_empty h budget scale rng n fuel st lcr k hemp] at hs
      simp [decompScopes_nil] at hs
    · rw [Bool.not_eq_true] at hemp
      by_cases helig : (eligList n budget st).isEmpty
      · -- clamp branch: the working graph is unchanged and no node is added
        rw [greedyLoop_succ_clamp h budget scale rng n fuel st lcr k hemp helig] at hs hfut
        have hnv : ∀ u w2, w2 ∈ W u → w2 ≠
            clampPick scale n (rng k) (decPhase lcr st) := by
          intro u w2 hmem heq
          have hin := (hfut u w2 hmem).2
          have hm2 := (mem_greedyLoop h budget scale rng n fuel _ _ _ w2 hin).2
          rw [heq] at hm2
          exact Bool.noConfusion
            ((clampApply_processed_self h (decPhase lcr st) _).symm.trans hm2)
        exact ih (clampApply h (decPhase lcr st) (clampPick scale n (rng k) (decPhase lcr st)))
          (((decPhase lcr st).vars (clampPick scale n (rng k) (decPhase lcr st))).clampRank)
          (k + 1) W
          (clampApply_domFixed h _ _ ds (decPhase_domFixed lcr st ds hdom))
          (clampApply_irr h _ _ (decPhase_irr lcr st hirr))
          (clampApply_cplxOK h _ _ (decPhase_cplxOK lcr st hcplx))
          (clampApply_wdom h _ _ W (decPhase_wdom lcr st W hw) hnv)
          hfut s hs
      · rw [Bool.not_eq_true] at helig
        rw [greedyLoop_succ_elim h budget scale rng n fuel st lcr k hemp helig] at hs hfut
        have hne : eligList n budget st ≠ [] := by
          intro h0
          rw [h0] at helig
          simp at helig
        have hvmem := elimPick_mem budget scale n (rng k) st hne
        have helim := mem_eligList hvmem
        rw [decompScopes_cons] at hs
        rcases List.mem_cons.mp hs with hhead | htail
        · -- the head scope: bounded by the stored complexity of the picked variable
          subst hhead
          have hWsub : W (elimPick budget scale n (rng k) st) ⊆
              (st.vars (elimPick budget scale n (rng k) st)).adj :=
            fun w hw2 => hw _ w hw2
          have hvnotin : elimPick budget scale n (rng k) st ∉
              W (elimPick budget scale n (rng k) st) :=
            fun hmem => hirr _ (hw _ _ hmem)
          have hprodle : (insert (elimPick budget scale n (rng k) st)
                (W (elimPick budget scale n (rng k) st))).prod ds ≤
              (st.vars (elimPick budget scale n (rng k) st)).cplx := by
            rw [Finset.prod_insert hvnotin, hcplx _ helim.2.1, hdom _]
            have hle : (W (elimPick budget scale n (rng k) st)).prod ds ≤
                ((st.vars (elimPick budget scale n (rng k) st)).adj).prod ds :=
              Finset.prod_le_prod_of_subset_of_one_le' hWsub (fun i _ _ => hds i)
            have hpc : ((st.vars (elimPick budget scale n (rng k) st)).adj).prod
                (fun w => (st.vars w).domSize) =
                ((st.vars (elimPick budget scale n (rng k) st)).adj).prod ds :=
              Finset.prod_congr rfl (fun w _ => hdom w)
            rw [hpc]
            exact Nat.mul_le_mul_left _ hle
          calc (((insert (elimPick budget scale n (rng k) st)
                (W (elimPick budget scale n (rng k) st))).prod ds : ℕ) : ℚ) ≤
              ((st.vars (elimPick budget scale n (rng k) st)).cplx : ℚ) := by
                exact_mod_cast hprodle
            _ ≤ budget := helim.2.2
        · -- the tail: the invariants carry to the eliminated state
          have hfut2 : ∀ u w2,
              w2 ∈ Decomp.elimGraphStep W (elimPick budget scale n (rng k) st) u →
              u ∈ greedyLoop h budget scale rng n fuel
                  (elimApply h st (elimPick budget scale n (rng k) st)) lcr (k + 1) ∧
                w2 ∈ greedyLoop h budget scale rng n fuel
                  (elimApply h st (elimPick budget scale n (rng k) st)) lcr (k + 1) := by
            intro u w2 hmem
            by_cases h1 : u = elimPick budget scale n (rng k) st
            · simp [Decomp.elimGraphStep, h1] at hmem
            · by_cases h2 : u ∈ W (elimPick budget scale n (rng k) st)
              · simp only [Decomp.elimGraphStep, if_neg h1, if_pos h2,
                  Finset.mem_erase] at hmem
                obtain ⟨hw2v, hw2u, hmem2⟩ := hmem
                constructor
                · have hin := (hfut _ u h2).2
                  rcases List.mem_cons.mp hin with h3 | h3
                  · exact absurd h3 h1
                  · exact h3
                · rcases Finset.mem_union.mp hmem2 with hcase | hcase
                  · have hin := (hfut u w2 hcase).2
                    rcases List.mem_cons.mp hin with h3 | h3
                    · exact absurd h3 hw2v
                    · exact h3
                  · have hin := (hfut _ w2 hcase).2
                    rcases List.mem_cons.mp hin with h3 | h3
                    · exact absurd h3 hw2v
                    · exact h3
              · simp only [Decomp.elimGraphStep, if_neg h1, if_neg h2,
                  Finset.mem_erase] at hmem
                obtain ⟨hw2v, hmem2⟩ := hmem
                constructor
                · have hin := (hfut u w2 hmem2).1
                  rcases List.mem_cons.mp hin with h3 | h3
                  · exact absurd h3 h1
                  · exact h3
                · have hin := (hfut u w2 hmem2).2
                  rcases List.mem_cons.mp hin with h3 | h3
                  · exact absurd h3 hw2v
                  · exact h3
          exact ih (elimApply h st (elimPick budget scale n (rng k) st)) lcr (k + 1)
            (Decomp.elimGraphStep W (elimPick budget scale n (rng k) st))
            (elimApply_domFixed h st _ ds hdom)
            (elimApply_irr h st _ hirr)
            (elimApply_cplxOK h st _ hirr hcplx)
            (elimApply_wdom h st _ W hirr hw)
            hfut2 s htail


/-- C10: in greedyVarOrder, every variable appended to the elimination order
has, at the moment it is selected, stored elimination complexity within the
budget: the elimination branch runs only when some unprocessed variable is
within budget, and selectVar clamps its random offset into the within-budget
initial segment of the cost index, for every selectionScale ≥ 0 and every
RNG output in [0, 1) (indeed for every rational draw, since the offset is
clamped into [0, totalRange − 1]). -/
theorem greedyStep_within_budget (h : Heuristic) (budget scale u : ℚ) (n : ℕ)
    (st : GState) (lcr : ℤ) (v : ℕ)
    (hscale : 0 ≤ scale) (hu0 : 0 ≤ u) (hu1 : u < 1)
    (hstep : (greedyStep h budget scale n u st lcr).1 = some v) :
    (st.vars v).processed = false ∧ ((st.vars v).cplx : ℚ) ≤ budget := by
  rw [greedyStep] at hstep
  by_cases helig : (eligList n budget st).isEmpty
  · rw [if_pos helig] at hstep
    simp at hstep
  · rw [if_neg helig] at hstep
    simp only [elimBranch] at hstep
    have hne : eligList n budget st ≠ [] := by
      intro h0
      rw [h0] at helig
      simp at helig
    have hv : elimPick budget scale n u st = v := by
      simpa using hstep
    have hmem := elimPick_mem budget scale n u st hne
    rw [hv] at hmem
    have := mem_eligList hmem
    exact ⟨this.2.1, this.2.2⟩

/-- C1: for every task (an irreflexive primal graph and positive domain
sizes), every heuristic, every clampRank vector of length numVars, every
selectionScale and every RNG, the elimination order returned by
greedyVarOrder, passed to TreeDecomp together with the task's graph and
domain sizes, yields a decomposition with complexity within maxComplexity:
in product form, every node scope's domain-size product is at most
budget = 2^maxComplexity. -/
theorem greedyVarOrder_decomp_within_budget (n : ℕ) (ds : ℕ → ℕ)
    (adj0 : ℕ → Finset ℕ) (clampRank : List ℤ) (h : Heuristic)
    (budget scale : ℚ) (rng : ℕ → ℚ) (ord : List ℕ)
    (hirr : ∀ v, v ∉ adj0 v) (hds : ∀ v, 1 ≤ ds v)
    (hrun : greedyVarOrder n ds adj0 clampRank h budget scale rng =
      Except.ok ord) :
    Decomp.complexityWithin adj0 ord ds budget := by
  rw [greedyVarOrder] at hrun
  by_cases hlen : clampRank.length ≠ n
  · rw [if_pos hlen] at hrun
    exact absurd hrun (by simp)
  · rw [if_neg hlen] at hrun
    by_cases hn : n = 0
    · rw [if_pos hn] at hrun
      have hord : ord = [] := by
        injection hrun with h2
        exact h2.symm
      subst hord
      intro s hs
      simp [decompScopes_nil] at hs
    · rw [if_neg hn] at hrun
      have hord : ord = greedyLoop h budget scale rng n n
          (initGState h ⟨n, ds, adj0, fun v => clampRank.getD v 0⟩) (-1) 0 := by
        injection hrun with h2
        exact h2.symm
      subst hord
      intro s hs
      refine greedyLoop_decomp_bound h budget scale rng n ds hds n
        (initGState h ⟨n, ds, adj0, fun v => clampRank.getD v 0⟩) (-1) 0
        (Decomp.initW adj0 (greedyLoop h budget scale rng n n
          (initGState h ⟨n, ds, adj0, fun v => clampRank.getD v 0⟩) (-1) 0))
        (initGState_domFixed h _) (initGState_irr h _ hirr) (initGState_cplxOK h _)
        ?_ ?_ s hs
      · intro u w hmem
        have hm := mem_initW adj0 _ u w hmem
        have hproc := (mem_greedyLoop h budget scale rng n n _ (-1) 0 w hm.2.2).2
        rw [initGState_processed] at hproc
        have hrank : 0 ≤ clampRank.getD w 0 :=
          le_of_not_lt (of_decide_eq_false hproc)
        rw [initGState_adj]
        exact Finset.mem_filter.mpr ⟨hm.2.1, hrank⟩
      · intro u w hmem
        have hm := mem_initW adj0 _ u w hmem
        exact ⟨hm.1, hm.2.2⟩


theorem greedyStep_within_budget_witness :
    (witnessGState.vars 0).processed = false ∧ ((witnessGState.vars 0).cplx : ℚ) ≤ 2 :=
  greedyStep_within_budget Heuristic.minDegree 2 1 0 1 witnessGState (-1) 0
    (by norm_num) (by norm_num) (by norm_num)
    (by
      have hsel : selectVar 1 1 1 0 = 0 := by
        rw [selectVar]
        norm_num
      have helig : eligList 1 2 witnessGState = [0] := by decide
      have hsort : List.insertionSort (costRel witnessGState) [0] = [0] := by decide
      rw [greedyStep, if_neg (by rw [helig]; simp)]
      simp only [elimBranch, elimPick, helig, hsort]
      norm_num [hsel])

theorem greedyVarOrder_decomp_within_budget_witness :
    Decomp.complexityWithin (fun _ => ∅) [0] (fun _ => 2) 2 :=
  greedyVarOrder_decomp_within_budget 1 (fun _ => 2) (fun _ => ∅) [0]
    Heuristic.minDegree 2 1 (fun _ => 0) [0]
    (fun v => Finset.not_mem_empty v) (fun _ => by norm_num)
    (by
      rw [greedyVarOrder, if_neg (by decide), if_neg (by decide)]
      have hsel : selectVar 1 1 1 0 = 0 := by
        rw [selectVar]
        norm_num
      have hun : unprocList 1 (initGState Heuristic.minDegree
          ⟨1, (fun _ => 2), (fun _ => ∅), fun v => ([0] : List ℤ).getD v 0⟩) = [0] := by
        decide
      have helig : eligList 1 2 (initGState Heuristic.minDegree
          ⟨1, (fun _ => 2), (fun _ => ∅), fun v => ([0] : List ℤ).getD v 0⟩) = [0] := by
        decide
      have hsort : List.insertionSort (costRel (initGState Heuristic.minDegree
          ⟨1, (fun _ => 2), (fun _ => ∅), fun v => ([0] : List ℤ).getD v 0⟩)) [0] = [0] := by
        decide
      rw [greedyLoop_succ_elim Heuristic.minDegree 2 1 (fun _ => 0) 1 0 _ (-1) 0
        (by rw [hun]; rfl) (by rw [helig]; rfl)]
      have hpick : elimPick 2 1 1 ((fun (_ : ℕ) => (0 : ℚ)) 0)
          (initGState Heuristic.minDegree
            ⟨1, (fun _ => 2), (fun _ => ∅), fun v => ([0] : List ℤ).getD v 0⟩) = 0 := by
        simp only [elimPick, helig, hsort]
        norm_num [hsel]
      rw [hpick]
      have hloopz : ∀ (st : GState) (lcr : ℤ) (k : ℕ),
          greedyLoop Heuristic.minDegree 2 1 (fun _ => 0) 1 0 st lcr k = [] :=
        fun st lcr k => rfl
      rw [hloopz])

end Greedy

/-! ## C3 — the marginal list of the sample entry point -/

theorem domAt_pos (doms : List ℕ) (hdoms : ∀ d ∈ doms, 1 ≤ d) (v : ℕ) :
    1 ≤ domAt doms v := by
  rw [domAt]
  by_cases h : v < doms.length
  · rw [List.getD_eq_getElem _ _ h]
    exact hdoms _ (List.getElem_mem h)
  · rw [List.getD_eq_default _ _ (le_of_not_lt h)]

theorem mergedVals_length (tables : List TableQ) (doms : List ℕ) (S : List ℕ) :
    (mergedVals tables doms S).length = scopeSize doms S := by
  rw [mergedVals, List.length_map, allAssignments_length, scopeSize]

theorem mergedVals_ne_nil (tables : List TableQ) (doms : List ℕ) (S : List ℕ)
    (hdoms : ∀ d ∈ doms, 1 ≤ d) : mergedVals tables doms S ≠ [] := by
  rw [mergedVals]
  intro h0
  have h1 := List.map_eq_nil_iff.mp h0
  refine allAssignments_ne_nil _ ?_ h1
  intro d hd
  rcases List.mem_map.mp hd with ⟨v, _, rfl⟩
  exact domAt_pos doms hdoms v

theorem normalizeVals_length (l : List ℝ) : (normalizeVals l).length = l.length := by
  rw [normalizeVals, List.length_map]

/-- Every normalised value list sums to exactly 1: the normaliser divides by
the log-sum marginalisation of the same list. -/
theorem normalizeVals_sum (l : List ℝ) (hne : l ≠ []) : (normalizeVals l).sum = 1 := by
  rw [normalizeVals, logSumMrg]
  have hpos : 0 < (l.map (fun x => Real.exp (x - l.foldr max l.headI))).sum := by
    apply List.sum_pos
    · intro y hy
      rcases List.mem_map.mp hy with ⟨x, _, rfl⟩
      exact Real.exp_pos _
    · intro h0
      exact hne (List.map_eq_nil_iff.mp h0)
  have hexp : ∀ x ∈ l,
      Real.exp (x - (l.foldr max l.headI +
        Real.log ((l.map (fun y => Real.exp (y - l.foldr max l.headI))).sum))) =
      Real.exp (x - l.foldr max l.headI) *
        ((l.map (fun y => Real.exp (y - l.foldr max l.headI))).sum)⁻¹ := by
    intro x _
    rw [show x - (l.foldr max l.headI +
        Real.log ((l.map (fun y => Real.exp (y - l.foldr max l.headI))).sum)) =
        (x - l.foldr max l.headI) -
          Real.log ((l.map (fun y => Real.exp (y - l.foldr max l.headI))).sum) by ring,
      Real.exp_sub, Real.exp_log hpos, div_eq_mul_inv]
  rw [List.map_congr_left hexp, List.sum_map_mul_right,
    mul_inv_cancel₀ (ne_of_gt hpos)]

theorem createMarginalsModel_vars (tables : List TableQ) (doms : List ℕ)
    (ord : List ℕ) :
    (createMarginalsModel tables doms ord).map (fun m => m.vars) =
      marginalScopes (Decomp.decompNodes (Decomp.initW (primalAdj tables) ord) ord) := by
  rw [createMarginalsModel, List.map_map]
  exact List.map_id _

/-- C3 counterexample: for the single variable 0 with domain size 3 and the
elimination order [0], the sample marginal list holds one unary marginal
whose value array has 3 entries, not 2 — the claimed "2 values per
single-variable marginal" only holds for binary domains. -/
theorem marginalSizes_not_binary :
    marginalSizesModel [⟨[0], [3], [0, 0, 0]⟩] [3] [0] = [3] ∧
      (createMarginalsModel [⟨[0], [3], [0, 0, 0]⟩] [3] [0]).map
        (fun m => m.values.length) = [3] ∧ (3 : ℕ) ≠ 2 := by
  have hW : Decomp.initW (primalAdj [⟨[0], [3], [0, 0, 0]⟩]) [0] 0 = ∅ := by decide
  have hnodes : Decomp.decompNodes
      (Decomp.initW (primalAdj [⟨[0], [3], [0, 0, 0]⟩]) [0]) [0] = [(0, ∅)] := by
    simp only [Decomp.decompNodes]
    rw [hW]
  have hscopes : marginalScopes (Decomp.decompNodes
      (Decomp.initW (primalAdj [⟨[0], [3], [0, 0, 0]⟩]) [0]) [0]) = [[0]] := by
    rw [hnodes]
    simp [marginalScopes, Finset.sort_empty]
  refine ⟨?_, ?_, by decide⟩
  · rw [marginalSizesModel, hscopes]
    decide
  · rw [createMarginalsModel, hscopes]
    simp only [List.map_map, List.map_cons, List.map_nil, Function.comp]
    rw [normalizeVals_length, mergedVals_length]
    decide

/-- C3 (amended): for every sample call with returnMarginals = true, the
returned marginal list contains, per bucket-tree node, exactly one
single-variable marginal over the node variable and one pairwise marginal
per (nodeVar, sepVar) pair, in ascending scope order (so the list length is
the sum over nodes of 1 + |sepVars|); each marginal carries one value per
element of its scope's domain product (2 per unary and 4 per pairwise
marginal when every domain is binary, as in the Ising/QUBO front ends); and
the values of every marginal are normalised to sum to 1 exactly (hence to
within 1e-9). -/
theorem createMarginals_claim (tables : List TableQ) (doms : List ℕ)
    (ord : List ℕ) (hdoms : ∀ d ∈ doms, 1 ≤ d) :
    (createMarginalsModel tables doms ord).length =
      ((Decomp.decompNodes (Decomp.initW (primalAdj tables) ord) ord).map
        (fun p => 1 + p.2.card)).sum ∧
    (∀ p ∈ Decomp.decompNodes (Decomp.initW (primalAdj tables) ord) ord,
      [p.1] ∈ (createMarginalsModel tables doms ord).map (fun m => m.vars) ∧
      ∀ v ∈ p.2, (if v < p.1 then [v, p.1] else [p.1, v]) ∈
        (createMarginalsModel tables doms ord).map (fun m => m.vars)) ∧
    (∀ m ∈ createMarginalsModel tables doms ord,
      m.values.length = scopeSize doms m.vars ∧ m.values.sum = 1) := by
  refine ⟨?_, ?_, ?_⟩
  · rw [createMarginalsModel, List.length_map, marginalScopes, List.length_flatMap]
    congr 1
    apply List.map_congr_left
    intro p _
    simp only [Function.comp_apply, List.length_cons, List.length_map, Finset.length_sort]
    omega
  · intro p hp
    rw [createMarginalsModel_vars]
    constructor
    · exact List.mem_flatMap.mpr ⟨p, hp, List.mem_cons_self _ _⟩
    · intro v hv
      refine List.mem_flatMap.mpr ⟨p, hp, List.mem_cons_of_mem _ ?_⟩
      exact List.mem_map.mpr ⟨v, (Finset.mem_sort _).mpr hv, rfl⟩
  · intro m hm
    rw [createMarginalsModel] at hm
    rcases List.mem_map.mp hm with ⟨S, _, rfl⟩
    refine ⟨?_, ?_⟩
    · rw [normalizeVals_length, mergedVals_length]
    · exact normalizeVals_sum _ (mergedVals_ne_nil tables doms S hdoms)

theorem createMarginals_claim_witness :
    (createMarginalsModel [⟨[0], [2], [0, 0]⟩] [2] [0]).length =
      ((Decomp.decompNodes (Decomp.initW (primalAdj [⟨[0], [2], [0, 0]⟩]) [0]) [0]).map
        (fun p => 1 + p.2.card)).sum ∧
    (∀ p ∈ Decomp.decompNodes (Decomp.initW (primalAdj [⟨[0], [2], [0, 0]⟩]) [0]) [0],
      [p.1] ∈ (createMarginalsModel [⟨[0], [2], [0, 0]⟩] [2] [0]).map (fun m => m.vars) ∧
      ∀ v ∈ p.2, (if v < p.1 then [v, p.1] else [p.1, v]) ∈
        (createMarginalsModel [⟨[0], [2], [0, 0]⟩] [2] [0]).map (fun m => m.vars)) ∧
    (∀ m ∈ createMarginalsModel [⟨[0], [2], [0, 0]⟩] [2] [0],
      m.values.length = scopeSize [2] m.vars ∧ m.values.sum = 1) :=
  createMarginals_claim [⟨[0], [2], [0, 0]⟩] [2] [0] (by decide)

end Orang
